import Mathlib

/-!
# Verification of `sisyphus.py`

A shallow embedding of the single-file bulk loader `src/sisyphus.py` and
proofs about the claims of its specification.

The program reads a directory of delimited files, derives destination table
names from file names via a regex, validates files and tables, optionally
runs a pre-SQL script, uploads every file in chunks through a thread pool,
and optionally runs a post-SQL script.  Library calls (SQLAlchemy reflection,
pandas chunked CSV reading, the thread pool) are modelled at their interface
boundary, following their documented behaviour; everything else is translated
line by line from the source.
-/

/-! ## Type mapper (`_DTYPE_CONVERSION_DICT`, `_convert_dtype`)

`_convert_dtype` receives a SQLAlchemy type and walks the conversion dict in
insertion order, returning the first pandas dtype whose key class the input
is an instance of; falling off the loop returns Python's implicit `None`.
We model the SQLAlchemy generic type classes that matter together with their
documented subclass hierarchy (`BigInteger <: Integer`, `Text <: String`,
`TIMESTAMP <: DateTime`, `Float <: Numeric`, ...). -/

/-- Decidable equality for `Except` results (not provided upstream). -/
instance {e : Type} {a : Type} [DecidableEq e] [DecidableEq a] :
    DecidableEq (Except e a) := fun x y =>
  match x, y with
  | .error u, .error v =>
    if h : u = v then .isTrue (by rw [h])
    else .isFalse (by intro hc; injection hc with hc; exact h hc)
  | .error _, .ok _ => .isFalse (by intro hc; cases hc)
  | .ok _, .error _ => .isFalse (by intro hc; cases hc)
  | .ok u, .ok v =>
    if h : u = v then .isTrue (by rw [h])
    else .isFalse (by intro hc; injection hc with hc; exact h hc)

/-- SQLAlchemy generic type classes relevant to the conversion dict,
as an explicit enumeration. -/
inductive SAType where
  | Integer
  | BigInteger
  | SmallInteger
  | Float
  | Numeric
  | String
  | Text
  | DateTime
  | TIMESTAMP
  | Date
  | Boolean
deriving DecidableEq, Repr

/-- `isinstanceOf t c` models Python's `isinstance(t(), c)` for the
SQLAlchemy class hierarchy restricted to `SAType`:
reflexive, plus the documented subclass edges. -/
def isinstanceOf : SAType → SAType → Bool
  | t, c =>
    t = c ||
      match t, c with
      | .BigInteger, .Integer => true
      | .SmallInteger, .Integer => true
      | .Float, .Numeric => true
      | .Text, .String => true
      | .TIMESTAMP, .DateTime => true
      | _, _ => false

/-- Pandas extension dtypes appearing as values of the conversion dict. -/
inductive PdDtype where
  | Int64Dtype
  | Float64Dtype
  | StringDtype
  | DatetimeTZDtype
deriving DecidableEq, Repr

/-- `_DTYPE_CONVERSION_DICT` of the source, as an association list in the
dict's insertion order. -/
def _DTYPE_CONVERSION_DICT : List (SAType × PdDtype) :=
  [(.Integer, .Int64Dtype),
   (.Float, .Float64Dtype),
   (.String, .StringDtype),
   (.DateTime, .DatetimeTZDtype)]

/-- `_convert_dtype` of the source: iterate the dict in order, return the
first value whose key matches by `isinstance`; `none` models the implicit
Python `None` returned when the loop falls through. -/
def _convert_dtype (type_ : SAType) : Option PdDtype :=
  (_DTYPE_CONVERSION_DICT.find? (fun p => isinstanceOf type_ p.1)).map (·.2)

/-- Written from the spec's words (§4.1): the input is "structurally
classified into one of {integer, float, string, timestamp, other}" and
mapped to "the matching target scalar type", with "a 'no coercion, pass
through as text' result" for the `other` class.  Used only to compare
against `_convert_dtype`. -/
def classify_spec : SAType → Option PdDtype
  | .Integer => some .Int64Dtype
  | .BigInteger => some .Int64Dtype
  | .SmallInteger => some .Int64Dtype
  | .Float => some .Float64Dtype
  | .String => some .StringDtype
  | .Text => some .StringDtype
  | .DateTime => some .DatetimeTZDtype
  | .TIMESTAMP => some .DatetimeTZDtype
  | .Numeric => none
  | .Date => none
  | .Boolean => none

/-! ## Chunked reading (`pd.read_csv(..., chunksize=B)`)

`_process_file` iterates the `TextFileReader` returned by `pd.read_csv`
with `chunksize = user_args.chunk_size`.  Per the pandas contract the
reader yields the rows of the file in order, in consecutive chunks of
exactly `chunksize` rows except for a shorter final chunk; an empty file
yields no chunks.  `chunksOf` is that contract (a zero chunk size, which
pandas rejects up front, yields no chunks so that the model stays total). -/

/-- Structural helper for `chunksOf`: `fuel` bounds the recursion depth;
any `fuel ≥ l.length` gives the same result, so `chunksOf` fixes
`fuel = l.length`.  (A structural definition keeps every concrete run of
the loader computable by the kernel.) -/
def chunksOfAux (b : Nat) : Nat → List α → List (List α)
  | _, [] => []
  | 0, _ :: _ => []
  | fuel + 1, x :: xs =>
    if b = 0 then []
    else (x :: xs).take b :: chunksOfAux b fuel ((x :: xs).drop b)

def chunksOf (b : Nat) (l : List α) : List (List α) :=
  chunksOfAux b l.length l

theorem chunksOfAux_congr (b : Nat) :
    ∀ (f1 : Nat) (l : List α) (f2 : Nat), l.length ≤ f1 → l.length ≤ f2 →
      chunksOfAux b f1 l = chunksOfAux b f2 l := by
  intro f1
  induction f1 with
  | zero =>
    intro l f2 h1 h2
    cases l with
    | nil => cases f2 <;> rfl
    | cons x xs => simp at h1
  | succ f1 ih =>
    intro l f2 h1 h2
    cases l with
    | nil => cases f2 <;> rfl
    | cons x xs =>
      cases f2 with
      | zero => simp at h2
      | succ f2 =>
        by_cases hb : b = 0
        · simp [chunksOfAux, hb]
        · simp only [chunksOfAux]
          rw [if_neg hb, if_neg hb]
          congr 1
          have hbpos : 0 < b := Nat.pos_of_ne_zero hb
          apply ih
          · simp only [List.length_drop, List.length_cons]
            simp only [List.length_cons] at h1
            omega
          · simp only [List.length_drop, List.length_cons]
            simp only [List.length_cons] at h2
            omega

theorem chunksOf_nil (b : Nat) : chunksOf b ([] : List α) = [] := rfl

theorem chunksOf_cons (b : Nat) (hb : b ≠ 0) (x : α) (xs : List α) :
    chunksOf b (x :: xs) = (x :: xs).take b :: chunksOf b ((x :: xs).drop b) := by
  show chunksOfAux b (x :: xs).length (x :: xs) = _
  simp only [List.length_cons, chunksOfAux]
  rw [if_neg hb]
  congr 1
  have hbpos : 0 < b := Nat.pos_of_ne_zero hb
  show chunksOfAux b xs.length ((x :: xs).drop b) =
    chunksOfAux b ((x :: xs).drop b).length ((x :: xs).drop b)
  apply chunksOfAux_congr
  · simp only [List.length_drop, List.length_cons]
    omega
  · exact Nat.le_refl _

/-- Unfolding for any nonempty list. -/
theorem chunksOf_ne_nil (b : Nat) (hb : b ≠ 0) (l : List α) (hl : l ≠ []) :
    chunksOf b l = l.take b :: chunksOf b (l.drop b) := by
  cases l with
  | nil => exact absurd rfl hl
  | cons x xs => exact chunksOf_cons b hb x xs

/-! ## Field coercion

Reading a chunk with a `dtype` mapping makes pandas coerce every field of
the chunk to the column's dtype; a field that cannot be parsed raises and
aborts that file's task.  The exact lexical rules of the pandas parsers are
irrelevant to every claim; `coerceOk` is a simple executable stand-in with
the one property that matters: a `none` dtype (Python `None`, i.e. no
conversion requested) always succeeds, and each concrete dtype has both
accepted and rejected inputs. -/

/-- Split a character list at the first occurrence of `sep`; `none` when
`sep` does not occur. -/
def splitAtChar (sep : Char) : List Char → Option (List Char × List Char)
  | [] => none
  | c :: cs =>
    if c = sep then some ([], cs)
    else
      match splitAtChar sep cs with
      | none => none
      | some (a, b) => some (c :: a, b)

/-- `s` is a decimal integer literal (optional leading minus). -/
def isIntLit (s : String) : Bool :=
  match s.data with
  | [] => false
  | c :: rest =>
    if c = '-' then !rest.isEmpty && rest.all Char.isDigit
    else (c :: rest).all Char.isDigit

/-- `s` is a decimal float literal: an integer, or `a.b` with both parts
nonempty digit runs. -/
def isFloatLit (s : String) : Bool :=
  isIntLit s ||
    (match splitAtChar '.' s.data with
     | some (a, b) => !a.isEmpty && !b.isEmpty &&
         a.all Char.isDigit && b.all Char.isDigit
     | none => false)

/-- `s` looks like an ISO date `y-m-d` of digit runs. -/
def isDateLit (s : String) : Bool :=
  match splitAtChar '-' s.data with
  | some (y, rest) =>
    (match splitAtChar '-' rest with
     | some (mo, d) => !y.isEmpty && !mo.isEmpty && !d.isEmpty &&
         y.all Char.isDigit && mo.all Char.isDigit && d.all Char.isDigit
     | none => false)
  | none => false

/-- Does raw field `s` parse under the requested dtype?  `none` means no
dtype was requested for the column (pass-through), which never fails;
empty fields are NA for every dtype. -/
def coerceOk : Option PdDtype → String → Bool
  | none, _ => true
  | some .StringDtype, _ => true
  | some .Int64Dtype, s => s = "" || isIntLit s
  | some .Float64Dtype, s => s = "" || isFloatLit s
  | some .DatetimeTZDtype, s => s = "" || isDateLit s

/-- A row parses iff every field parses under its column's dtype
(missing/extra columns are not an error at this stage: schema-on-read is
loose, so we zip and ignore the overhang). -/
def rowOk (dtypes : List (Option PdDtype)) (row : List String) : Bool :=
  (List.zip dtypes row).all (fun p => coerceOk p.1 p.2)

/-- A chunk parses iff all of its rows parse. -/
def chunkOk (dtypes : List (Option PdDtype)) (c : List (List String)) : Bool :=
  c.all (rowOk dtypes)

/-! ## Observable events of a run

The claims are about the order and presence of the run's observable
actions, so the model of `_main` produces a trace of events.  Mutating
calls are `append` (a `chunk.to_sql` call) and `script ph true` (a
`conn.execute` of a script); `script ph false` is the logged dry-run skip,
`chunk` is the per-chunk processing step performed in both modes. -/

/-- Which script hook an event belongs to. -/
inductive Phase where
  | pre
  | post
deriving DecidableEq, Repr

/-- Observable events of a run. -/
inductive Event where
  /-- The script hook of phase `ph` completed; `executed = true` means the
  SQL was really executed, `false` is the dry-run skip. -/
  | script (ph : Phase) (executed : Bool)
  /-- A loader task for `file` started executing. -/
  | taskStart (file : String)
  /-- Chunk `idx` of `file`, holding `len` rows, was read and coerced. -/
  | chunk (file : String) (idx len : Nat)
  /-- Chunk `idx`, holding `len` rows, was appended to `table` via `to_sql`. -/
  | append (table : String) (idx len : Nat)
  /-- The loader task for `file` reached a terminal state (`ok`?). -/
  | taskEnd (file : String) (ok : Bool)
deriving DecidableEq, Repr

/-- Events a loader task can emit (everything but the script events). -/
def Event.isTask : Event → Bool
  | .script _ _ => false
  | _ => true

/-- Mutating calls: real batch appends and real script executions. -/
def Event.isMutating : Event → Bool
  | .append _ _ _ => true
  | .script _ executed => executed
  | _ => false

/-! ## `_process_file`

Translated from the source: build the per-column dtype dict from the
table's reflected columns via `_convert_dtype`, open the chunked reader,
and for each chunk log it and, unless `dry_run`, append it to the table.
A chunk whose parse/coercion fails raises, ending the task right there;
chunks already appended stay appended.  The result is the emitted events
plus whether the task completed without an exception. -/

/-- The chunk loop (`for i, chunk in enumerate(pd_io)`) of `_process_file`,
starting at chunk index `i`. -/
def processChunks (dry_run : Bool) (file table : String)
    (dtypes : List (Option PdDtype)) :
    Nat → List (List (List String)) → List Event × Bool
  | _, [] => ([], true)
  | i, c :: cs =>
    if chunkOk dtypes c then
      let rest := processChunks dry_run file table dtypes (i + 1) cs
      (Event.chunk file i c.length ::
        ((if dry_run then [] else [Event.append table i c.length]) ++ rest.1),
       rest.2)
    else ([], false)

/-- `_process_file` of the source, for one (file, table) pair.  `cols` is
`metadata.tables[table_name].columns`, `rows` the file's parsed rows. -/
def _process_file (dry_run : Bool) (chunk_size : Nat)
    (cols : List (String × SAType)) (file table : String)
    (rows : List (List String)) : List Event × Bool :=
  let dtype_column_dict := cols.map (fun c => _convert_dtype c.2)
  processChunks dry_run file table dtype_column_dict 0 (chunksOf chunk_size rows)

/-! ## Schema catalog (`sa.MetaData`) -/

/-- The reflected metadata: table name to reflected columns. -/
structure MetaData where
  tables : List (String × List (String × SAType))
deriving DecidableEq, Repr

/-- Table names present in the metadata, in insertion order. -/
def MetaData.names (m : MetaData) : List String :=
  m.tables.map (·.1)

/-- Reflected columns of table `t` (the table is guaranteed present at the
call sites, `[]` is a dead default). -/
def MetaData.columnsOf (m : MetaData) (t : String) : List (String × SAType) :=
  ((m.tables.find? (fun p => p.1 == t)).map (·.2)).getD []

/-- `MetaData.reflect(bind=engine, ...)` per the SQLAlchemy contract: load
the definitions of database tables *not already present* into this same
`MetaData` object; tables already present are left as they are and tables
that no longer exist in the database are NOT removed.  `db` is the
database's current tables at reflection time. -/
def MetaData.reflect (db : List (String × List (String × SAType)))
    (m : MetaData) : MetaData :=
  ⟨m.tables ++ db.filter (fun t => !(m.names.contains t.1))⟩

/-- Written from the spec's words (§4.2): refresh "replaces the snapshot
atomically — replace-the-whole-object semantics, not incremental
mutation", so the catalog becomes exactly the database's current state.
Used only to compare against `MetaData.reflect`. -/
def refresh_spec (db : List (String × List (String × SAType)))
    (_m : MetaData) : MetaData :=
  ⟨db⟩

/-! ## The world and the run configuration -/

/-- The environment a run executes against: the data directory, the
database, and the script files.  `db` is the database's tables as
reflection finds them; `scriptContent path = none` models an unreadable or
missing script file; `execOk sql` tells whether executing `sql` on the
connection succeeds. -/
structure World where
  dirFiles : List String
  isFile : String → Bool
  fileRows : String → List (List String)
  db : List (String × List (String × SAType))
  scriptContent : String → Option String
  execOk : String → Bool

/-- The parsed command-line arguments that the claims depend on
(`user_args` fields; `rule` is `re.compile(regex_suffix).search` returning
the start position of the first match, `regex_suffix` kept alongside for
error messages). -/
structure Config where
  tables : List String
  regex_suffix : String
  rule : String → Option Nat
  chunk_size : Nat
  threads : Nat
  dry_run : Bool
  execute_first : String
  execute_last : String

/-! ## `_execute_sql` -/

/-- Failures of `_execute_sql`: the script file cannot be opened/read, or
the connection raises while executing it. -/
inductive ScriptErr where
  | fileNotFound
  | sqlError
deriving DecidableEq, Repr

/-- `_execute_sql` of the source: under `dry_run` return before touching
the connection, the script file or the metadata; otherwise read the script
file, execute it on a connection, and reflect the metadata anew in place.
Returns the emitted events, the raised exception if any, and the metadata
object's state afterwards. -/
def _execute_sql (w : World) (m : MetaData) (script_path : String)
    (dry_run : Bool) (ph : Phase) :
    List Event × Option ScriptErr × MetaData :=
  if dry_run then ([Event.script ph false], none, m)
  else
    match w.scriptContent script_path with
    | none => ([], some .fileNotFound, m)
    | some sql =>
      if w.execOk sql then
        ([Event.script ph true], none, MetaData.reflect w.db m)
      else ([], some .sqlError, m)

/-! ## `_process_user_args` (the file plan resolver)

Translated from the source, in source order: (1) obtain the file list —
all regular files of the data directory when `--tables` is empty,
otherwise the given list after checking each entry is a regular file;
(2) derive each destination table name as the file name's prefix before
the first regex match, raising on a non-matching name; (3) reflect the
metadata; (4) check every derived table exists in the metadata, raising on
the first that does not.  Exceptions abort the whole resolution: no plan
is returned.  The result also carries the trace of existence checks
performed, used to state the fail-fast claims. -/

/-- Exceptions raised by `_process_user_args`, carrying exactly the data
interpolated into the source's error messages. -/
inductive ResolveErr where
  /-- `FileNotFoundError(f"File {table} not found in {data_dir}")` -/
  | fileNotFound (file : String)
  /-- `ValueError(f"File name {file_name} does not match the regex {...}")` -/
  | namePattern (file rule : String)
  /-- `ValueError(f"Table {table_name} corresponding to {file_name} is not found ...")` -/
  | tableNotFound (file table : String)
deriving DecidableEq, Repr

/-- Checks the resolver performs, in order. -/
inductive ResolveEvent where
  /-- `(data_dir / table).is_file()` was evaluated. -/
  | fileCheck (file : String)
  /-- `table_name not in metadata.tables` was evaluated for `file`. -/
  | tableCheck (file table : String)
deriving DecidableEq, Repr

/-- The explicit-list branch: `for table in user_args.tables: if not
(data_dir / table).is_file(): raise FileNotFoundError(...)`.  Returns the
first missing file (if any) and the checks performed. -/
def checkFiles (isFile : String → Bool) : List String → Option String × List ResolveEvent
  | [] => (none, [])
  | t :: ts =>
    if isFile t then
      let rest := checkFiles isFile ts
      (rest.1, .fileCheck t :: rest.2)
    else (some t, [.fileCheck t])

/-- The name-derivation loop: for each file name, `regex.search`; no match
raises, a match at position `pos` yields table name `file_name[:pos]`. -/
def deriveNames (rule : String → Option Nat) (regex_suffix : String) :
    List String → Except ResolveErr (List (String × String))
  | [] => .ok []
  | f :: fs =>
    match rule f with
    | none => .error (.namePattern f regex_suffix)
    | some pos =>
      match deriveNames rule regex_suffix fs with
      | .error e => .error e
      | .ok rest => .ok ((f, f.take pos) :: rest)

/-- `table_names` is a Python dict keyed by file name: a duplicate file
name overwrites its (identical, since derivation is a function of the
name) entry, keeping the first position — i.e. first occurrences win. -/
def dedupKeys : List (String × String) → List (String × String)
  | [] => []
  | p :: ps => p :: (dedupKeys ps).filter (fun q => q.1 != p.1)

/-- The table-existence loop: for each plan entry, test membership in the
reflected metadata, raising on the first miss.  Returns the error (if
any) and the checks performed. -/
def checkTables (names : List String) :
    List (String × String) → Option ResolveErr × List ResolveEvent
  | [] => (none, [])
  | (f, t) :: ps =>
    if names.contains t then
      let rest := checkTables names ps
      (rest.1, .tableCheck f t :: rest.2)
    else (some (.tableNotFound f t), [.tableCheck f t])

/-- Steps (2)–(4) of `_process_user_args`, shared by both file-list
branches; `evs0` are the file-existence checks already performed. -/
def resolveFrom (cfg : Config) (w : World) (files : List String)
    (evs0 : List ResolveEvent) :
    Except ResolveErr (List (String × String) × MetaData) × List ResolveEvent :=
  match deriveNames cfg.rule cfg.regex_suffix files with
  | .error e => (.error e, evs0)
  | .ok pairs =>
    let table_names := dedupKeys pairs
    let metadata := MetaData.reflect w.db ⟨[]⟩
    match checkTables metadata.names table_names with
    | (some e, tevs) => (.error e, evs0 ++ tevs)
    | (none, tevs) => (.ok (table_names, metadata), evs0 ++ tevs)

/-- `_process_user_args` of the source (connection handling elided: the
claims assume a reachable database, reflection is `MetaData.reflect` into
a fresh `MetaData()`). -/
def _process_user_args (cfg : Config) (w : World) :
    Except ResolveErr (List (String × String) × MetaData) × List ResolveEvent :=
  if cfg.tables.isEmpty then
    resolveFrom cfg w w.dirFiles []
  else
    match checkFiles w.isFile cfg.tables with
    | (some t, evs) => (.error (.fileNotFound t), evs)
    | (none, evs) => resolveFrom cfg w cfg.tables evs

/-! ## `_main` (the load orchestrator)

`_main` resolves the plan, runs the optional pre-script, submits one
`_process_file` task per plan entry to a `ThreadPoolExecutor` whose
`with` block waits for all of them (`shutdown(wait=True)`), and then runs
the optional post-script.  `submit` is fire-and-forget: the returned
futures are dropped, so a task's exception is stored in its future and
never re-raised, and it neither cancels sibling tasks nor reaches `_main`.
The workers interleave arbitrarily; `Interleave` quantifies over every
possible interleaving of the per-task event sequences. -/

/-- An uncaught exception of the run. -/
inductive RunErr where
  | resolve (e : ResolveErr)
  | script (e : ScriptErr)
deriving DecidableEq, Repr

/-- The pre-script step of `_main`: `if user_args.execute_first:
_execute_sql(...)`. -/
def preStep (cfg : Config) (w : World) (m : MetaData) :
    List Event × Option ScriptErr × MetaData :=
  if cfg.execute_first = "" then ([], none, m)
  else _execute_sql w m cfg.execute_first cfg.dry_run .pre

/-- The post-script step of `_main`: `if user_args.execute_last:
_execute_sql(...)`. -/
def postStep (cfg : Config) (w : World) (m : MetaData) :
    List Event × Option ScriptErr × MetaData :=
  if cfg.execute_last = "" then ([], none, m)
  else _execute_sql w m cfg.execute_last cfg.dry_run .post

/-- The full event sequence of one submitted task: the worker enters
`_process_file` for the plan entry `p` and the future records the
outcome. -/
def taskRun (cfg : Config) (w : World) (m : MetaData)
    (p : String × String) : List Event :=
  let r := _process_file cfg.dry_run cfg.chunk_size (m.columnsOf p.2)
    p.1 p.2 (w.fileRows p.1)
  Event.taskStart p.1 :: r.1 ++ [Event.taskEnd p.1 r.2]

/-- `Interleave ls out`: `out` is an interleaving of the sequences `ls` —
each step consumes the head of one of the sequences, every sequence is
consumed completely. -/
inductive Interleave : List (List α) → List α → Prop where
  | nil {ls : List (List α)} : (∀ l ∈ ls, l = []) → Interleave ls []
  | cons {ls : List (List α)} (i : Nat) (a : α) (rest : List α) {out : List α} :
      ls[i]? = some (a :: rest) → Interleave (ls.set i rest) out →
      Interleave ls (a :: out)

/-- `MainRun cfg w tr err`: one possible execution of `_main` produces
the event trace `tr` and ends with the uncaught exception `err` (`none` =
normal return).  The three constructors are the three ways `_main` can
unwind: resolution raises before any phase; the pre-script raises before
the pool is entered; or the pool runs every submitted task to a terminal
state under some interleaving and the post-script step follows. -/
inductive MainRun (cfg : Config) (w : World) : List Event → Option RunErr → Prop where
  | resolveFail {e : ResolveErr} :
      (_process_user_args cfg w).1 = .error e →
      MainRun cfg w [] (some (.resolve e))
  | preFail {plan : List (String × String)} {m : MetaData}
      {evs : List Event} {e : ScriptErr} {m' : MetaData} :
      (_process_user_args cfg w).1 = .ok (plan, m) →
      preStep cfg w m = (evs, some e, m') →
      MainRun cfg w evs (some (.script e))
  | run {plan : List (String × String)} {m : MetaData}
      {preEvs : List Event} {m1 : MetaData} {mid : List Event}
      {postEvs : List Event} {postErr : Option ScriptErr} {m2 : MetaData} :
      (_process_user_args cfg w).1 = .ok (plan, m) →
      preStep cfg w m = (preEvs, none, m1) →
      Interleave (plan.map (taskRun cfg w m1)) mid →
      postStep cfg w m1 = (postEvs, postErr, m2) →
      MainRun cfg w (preEvs ++ mid ++ postEvs) (postErr.map .script)

/-! ## Interleaving lemmas -/

/-- An element of an interleaving comes from one of the sequences. -/
theorem interleave_mem {α : Type} : ∀ {ls : List (List α)} {out : List α},
    Interleave ls out → ∀ x ∈ out, ∃ l ∈ ls, x ∈ l := by
  intro ls out h
  induction h with
  | nil _ => intro x hx; cases hx
  | @cons ls i a rest out hget _ ih =>
    intro x hx
    have hmem : (a :: rest) ∈ ls := by
      obtain ⟨hlt, heq⟩ := List.getElem?_eq_some.mp hget
      exact heq ▸ List.getElem_mem hlt
    rcases List.mem_cons.mp hx with heq | hx
    · exact heq ▸ ⟨a :: rest, hmem, List.mem_cons_self _ _⟩
    · obtain ⟨l, hl, hxl⟩ := ih x hx
      rcases List.mem_or_eq_of_mem_set hl with hl' | heq
      · exact ⟨l, hl', hxl⟩
      · exact ⟨a :: rest, hmem, List.mem_cons_of_mem _ (heq ▸ hxl)⟩

/-- Every element of every sequence reaches the interleaving. -/
theorem interleave_mem_out {α : Type} : ∀ {ls : List (List α)} {out : List α},
    Interleave ls out → ∀ (i : Nat) (l : List α), ls[i]? = some l → ∀ x ∈ l, x ∈ out := by
  intro ls out h
  induction h with
  | @nil ls hnil =>
    intro i l hget x hx
    have hmem : l ∈ ls := by
      obtain ⟨hlt, heq⟩ := List.getElem?_eq_some.mp hget
      exact heq ▸ List.getElem_mem hlt
    rw [hnil l hmem] at hx
    cases hx
  | @cons ls j a rest out hget _ ih =>
    intro i l hgi x hx
    by_cases hij : i = j
    · subst hij
      rw [hget] at hgi
      injection hgi with hgi
      subst hgi
      rcases List.mem_cons.mp hx with rfl | hx'
      · exact List.mem_cons_self _ _
      · have hlt : i < ls.length := (List.getElem?_eq_some.mp hget).1
        have hset : (ls.set i rest)[i]? = some rest := by
          rw [List.getElem?_set_self]
          exact hlt
        exact List.mem_cons_of_mem _ (ih i rest hset x hx')
    · have hset : (ls.set j rest)[i]? = some l := by
        rw [List.getElem?_set_ne (fun hji => hij hji.symm)]
        exact hgi
      exact List.mem_cons_of_mem _ (ih i l hset x hx)

/-- Auxiliary: replacing entry `i` (known to hold `v`) by `w` shifts a
mapped sum by exactly the difference of the two images. -/
theorem sum_map_set {α : Type} {ls : List (List α)} {i : Nat} {v : List α}
    (w : List α) (hget : ls[i]? = some v) (g : List α → Nat) :
    ((ls.set i w).map g).sum + g v = (ls.map g).sum + g w := by
  induction ls generalizing i with
  | nil => simp at hget
  | cons hd tl ih =>
    cases i with
    | zero =>
      simp only [List.getElem?_cons_zero] at hget
      injection hget with hget
      subst hget
      simp only [List.set_cons_zero, List.map_cons, List.sum_cons]
      omega
    | succ n =>
      simp only [List.getElem?_cons_succ] at hget
      have key := ih hget
      simp only [List.set_cons_succ, List.map_cons, List.sum_cons]
      omega

/-- A mapped sum over an interleaving equals the total over the
sequences; in particular any per-event count or weight is independent of
the interleaving order. -/
theorem interleave_map_sum {α : Type} (g : α → Nat) :
    ∀ {ls : List (List α)} {out : List α}, Interleave ls out →
    (out.map g).sum = (ls.map (fun l => (l.map g).sum)).sum := by
  intro ls out h
  induction h with
  | @nil ls hnil =>
    symm
    simp only [List.map_nil, List.sum_nil]
    apply List.sum_eq_zero
    intro x hxm
    obtain ⟨l, hl, rfl⟩ := List.mem_map.mp hxm
    rw [hnil l hl]
    rfl
  | @cons ls i a rest out hget _ ih =>
    have key := sum_map_set rest hget (fun l => (l.map g).sum)
    simp only [List.map_cons, List.sum_cons] at key ⊢
    omega

/-! ## Batch-shape lemmas for the chunked reader -/

theorem chunksOf_length {α : Type} (b : Nat) (hb : b ≠ 0) (l : List α) :
    (chunksOf b l).length = (l.length + b - 1) / b := by
  by_cases hl : l = []
  · subst hl
    rw [chunksOf_nil]
    simp only [List.length_nil]
    rw [Nat.zero_add]
    exact (Nat.div_eq_of_lt (by omega)).symm
  · rw [chunksOf_ne_nil b hb l hl, List.length_cons,
      chunksOf_length b hb (l.drop b), List.length_drop]
    have hb0 : 0 < b := Nat.pos_of_ne_zero hb
    have hN : 1 ≤ l.length := List.length_pos.mpr hl
    by_cases hNb : l.length ≤ b
    · have h1 : l.length - b = 0 := by omega
      rw [h1]
      have h2 : 0 + b - 1 = b - 1 := by omega
      rw [h2, Nat.div_eq_of_lt (by omega)]
      have h3 : l.length + b - 1 = (l.length - 1) + b := by omega
      rw [h3, Nat.add_div_right _ hb0, Nat.div_eq_of_lt (by omega)]
    · have h2 : l.length + b - 1 = (l.length - b + b - 1) + b := by omega
      rw [h2, Nat.add_div_right _ hb0]
termination_by l.length
decreasing_by
  simp only [List.length_drop]
  have : 1 ≤ l.length := List.length_pos.mpr hl
  omega

theorem chunksOf_le {α : Type} (b : Nat) (hb : b ≠ 0) (l : List α) :
    ∀ c ∈ chunksOf b l, c.length ≤ b := by
  by_cases hl : l = []
  · subst hl
    rw [chunksOf_nil]
    intro c hc
    cases hc
  · rw [chunksOf_ne_nil b hb l hl]
    intro c hc
    rcases List.mem_cons.mp hc with heq | h
    · subst heq
      rw [List.length_take]
      omega
    · exact chunksOf_le b hb (l.drop b) c h
termination_by l.length
decreasing_by
  simp only [List.length_drop]
  have : 1 ≤ l.length := List.length_pos.mpr hl
  omega

theorem chunksOf_sum {α : Type} (b : Nat) (hb : b ≠ 0) (l : List α) :
    ((chunksOf b l).map List.length).sum = l.length := by
  by_cases hl : l = []
  · subst hl
    rw [chunksOf_nil]
    rfl
  · rw [chunksOf_ne_nil b hb l hl, List.map_cons, List.sum_cons,
      chunksOf_sum b hb (l.drop b), List.length_drop, List.length_take]
    omega
termination_by l.length
decreasing_by
  simp only [List.length_drop]
  have : 1 ≤ l.length := List.length_pos.mpr hl
  omega

theorem chunksOf_last {α : Type} (b : Nat) (hb : b ≠ 0) (l : List α) (hl : l ≠ []) :
    ∃ c, (chunksOf b l).getLast? = some c ∧
      c.length = if l.length % b = 0 then b else l.length % b := by
  have hN : 1 ≤ l.length := List.length_pos.mpr hl
  rw [chunksOf_ne_nil b hb l hl]
  by_cases hd : l.drop b = []
  · have hNb : l.length ≤ b := List.drop_eq_nil_iff.mp hd
    rw [hd, chunksOf_nil]
    refine ⟨l.take b, rfl, ?_⟩
    rw [List.length_take]
    rcases Nat.lt_or_ge l.length b with h | h
    · rw [Nat.mod_eq_of_lt h, if_neg (by omega)]
      omega
    · have heq : l.length = b := Nat.le_antisymm hNb h
      rw [heq, Nat.mod_self, if_pos rfl]
      omega
  · obtain ⟨c, hc, hlen⟩ := chunksOf_last b hb (l.drop b) hd
    have hNb : b < l.length := by
      rcases Nat.lt_or_ge b l.length with h | h
      · exact h
      · exact absurd (List.drop_eq_nil_iff.mpr h) hd
    refine ⟨c, ?_, ?_⟩
    · rw [chunksOf_ne_nil b hb (l.drop b) hd] at hc ⊢
      rw [List.getLast?_cons_cons]
      exact hc
    · rw [hlen, List.length_drop]
      have hmod : (l.length - b) % b = l.length % b := by
        conv_rhs => rw [← Nat.sub_add_cancel (Nat.le_of_lt hNb)]
        rw [Nat.add_mod_right]
      rw [hmod]
termination_by l.length
decreasing_by
  simp only [List.length_drop]
  omega

/-! ## Claim C3 (type mapper) -/

/-- C3: for every destination column SQL type the Type Mapper is total and
agrees with the spec's structural classification: types classified as
integer, float, string or timestamp map to the corresponding pandas dtype
of the recognized set, and every type outside the classification maps to
the pass-through result (`none`, Python's fall-through `None`) instead of
raising.  `_convert_dtype` is a total Lean function, so no input makes it
fail. -/
theorem typeMapper_total_matches_classification :
    ∀ type_ : SAType, _convert_dtype type_ = classify_spec type_ := by
  intro t
  cases t <;> rfl

/-! ## Claim C4 (batch shape of the chunked loader) -/

/-- C4: for a source file with `N = rows.length` rows and batch size
`b > 0` the chunked reader driving `_process_file` produces exactly
`⌈N / b⌉` batches, every batch holds at most `b` rows, the final batch
(when the file is nonempty) holds `N mod b` rows — or `b` when `b ∣ N` —
and the batch sizes total exactly `N`. -/
theorem chunkedLoader_batch_shape {α : Type} (b : Nat) (hb : 0 < b)
    (rows : List α) :
    (chunksOf b rows).length = (rows.length + b - 1) / b
    ∧ (∀ c ∈ chunksOf b rows, c.length ≤ b)
    ∧ (rows ≠ [] → ∃ c, (chunksOf b rows).getLast? = some c ∧
        c.length = if rows.length % b = 0 then b else rows.length % b)
    ∧ ((chunksOf b rows).map List.length).sum = rows.length := by
  have hb' : b ≠ 0 := Nat.pos_iff_ne_zero.mp hb
  exact ⟨chunksOf_length b hb' rows, chunksOf_le b hb' rows,
    fun hne => chunksOf_last b hb' rows hne, chunksOf_sum b hb' rows⟩

/-- Witness for C4 at a concrete input: 5 rows, batch size 2 gives 3
batches of sizes 2, 2, 1 summing to 5, the last of size 5 mod 2. -/
theorem chunkedLoader_batch_shape_witness :
    0 < 2
    ∧ ((chunksOf 2 ["r1", "r2", "r3", "r4", "r5"]).length = (5 + 2 - 1) / 2
      ∧ (∀ c ∈ chunksOf 2 ["r1", "r2", "r3", "r4", "r5"], c.length ≤ 2)
      ∧ ((["r1", "r2", "r3", "r4", "r5"] : List String) ≠ [] →
          ∃ c, (chunksOf 2 ["r1", "r2", "r3", "r4", "r5"]).getLast? = some c ∧
            c.length = if 5 % 2 = 0 then 2 else 5 % 2)
      ∧ ((chunksOf 2 ["r1", "r2", "r3", "r4", "r5"]).map List.length).sum = 5) :=
  ⟨by decide, chunkedLoader_batch_shape 2 (by decide) ["r1", "r2", "r3", "r4", "r5"]⟩

/-! ## Resolver lemmas -/

/-- The files the resolver works on: the directory listing when `--tables`
is empty, the explicit list otherwise. -/
def filesOf (cfg : Config) (w : World) : List String :=
  if cfg.tables.isEmpty then w.dirFiles else cfg.tables

theorem checkFiles_events (isFile : String → Bool) (ts : List String) :
    ∀ ev ∈ (checkFiles isFile ts).2, ∃ f, ev = ResolveEvent.fileCheck f := by
  induction ts with
  | nil => intro ev hev; cases hev
  | cons t ts ih =>
    intro ev hev
    by_cases h : isFile t
    · simp only [checkFiles, if_pos h] at hev
      rcases List.mem_cons.mp hev with heq | hev'
      · exact ⟨t, heq⟩
      · exact ih ev hev'
    · simp only [checkFiles, if_neg h] at hev
      rcases List.mem_cons.mp hev with heq | hev'
      · exact ⟨t, heq⟩
      · cases hev'

theorem checkFiles_found (isFile : String → Bool) (ts : List String)
    (hmiss : ∃ t ∈ ts, isFile t = false) :
    ∃ t0, ts.find? (fun t => !isFile t) = some t0 ∧
      (checkFiles isFile ts).1 = some t0 := by
  induction ts with
  | nil => obtain ⟨t, ht, _⟩ := hmiss; cases ht
  | cons t ts ih =>
    by_cases h : isFile t
    · have hmiss' : ∃ u ∈ ts, isFile u = false := by
        obtain ⟨u, hu, hfu⟩ := hmiss
        rcases List.mem_cons.mp hu with heq | hu'
        · subst heq; rw [h] at hfu; cases hfu
        · exact ⟨u, hu', hfu⟩
      obtain ⟨t0, hfind, hres⟩ := ih hmiss'
      refine ⟨t0, ?_, ?_⟩
      · rw [List.find?_cons]
        simp only [h, Bool.not_true]
        exact hfind
      · simp only [checkFiles, if_pos h]
        exact hres
    · refine ⟨t, ?_, ?_⟩
      · rw [List.find?_cons]
        simp only [Bool.not_eq_true] at h
        simp [h]
      · simp only [checkFiles, if_neg h]

theorem checkFiles_none (isFile : String → Bool) (ts : List String)
    (hall : ∀ t ∈ ts, isFile t = true) : (checkFiles isFile ts).1 = none := by
  induction ts with
  | nil => rfl
  | cons t ts ih =>
    have h := hall t (List.mem_cons_self _ _)
    simp only [checkFiles, if_pos h]
    exact ih (fun u hu => hall u (List.mem_cons_of_mem _ hu))

theorem deriveNames_ok_spec (rule : String → Option Nat) (rs : String)
    (files : List String) (pairs : List (String × String))
    (h : deriveNames rule rs files = .ok pairs) :
    ∀ p ∈ pairs, ∃ pos, rule p.1 = some pos ∧ p.2 = p.1.take pos := by
  induction files generalizing pairs with
  | nil =>
    simp only [deriveNames] at h
    injection h with h
    subst h
    intro p hp
    cases hp
  | cons f fs ih =>
    simp only [deriveNames] at h
    cases hr : rule f with
    | none => rw [hr] at h; cases h
    | some pos =>
      rw [hr] at h
      cases hd : deriveNames rule rs fs with
      | error e => rw [hd] at h; cases h
      | ok rest =>
        rw [hd] at h
        injection h with h
        subst h
        intro p hp
        rcases List.mem_cons.mp hp with heq | hp'
        · subst heq
          exact ⟨pos, hr, rfl⟩
        · exact ih rest hd p hp'

theorem deriveNames_err (rule : String → Option Nat) (rs : String)
    (files : List String) (f0 : String)
    (hfind : files.find? (fun f => (rule f).isNone) = some f0) :
    deriveNames rule rs files = .error (.namePattern f0 rs) := by
  induction files with
  | nil => cases hfind
  | cons f fs ih =>
    rw [List.find?_cons] at hfind
    cases hr : rule f with
    | none =>
      rw [hr] at hfind
      simp only [Option.isNone_none, if_pos] at hfind
      injection hfind with hfind
      subst hfind
      simp only [deriveNames, hr]
    | some pos =>
      rw [hr] at hfind
      simp only [Option.isNone_some] at hfind
      simp only [deriveNames, hr]
      rw [ih hfind]

theorem deriveNames_ok_of_all (rule : String → Option Nat) (rs : String)
    (files : List String) (hall : ∀ f ∈ files, (rule f).isSome = true) :
    ∃ pairs, deriveNames rule rs files = .ok pairs ∧
      pairs.map (·.1) = files := by
  induction files with
  | nil => exact ⟨[], rfl, rfl⟩
  | cons f fs ih =>
    have hf := hall f (List.mem_cons_self _ _)
    cases hr : rule f with
    | none => rw [hr] at hf; cases hf
    | some pos =>
      obtain ⟨rest, hd, hkeys⟩ := ih (fun u hu => hall u (List.mem_cons_of_mem _ hu))
      refine ⟨(f, f.take pos) :: rest, ?_, ?_⟩
      · simp only [deriveNames, hr, hd]
      · simp [hkeys]

theorem mem_dedupKeys (l : List (String × String)) :
    ∀ p ∈ dedupKeys l, p ∈ l := by
  induction l with
  | nil => intro p hp; cases hp
  | cons q qs ih =>
    intro p hp
    simp only [dedupKeys] at hp
    rcases List.mem_cons.mp hp with heq | hp'
    · rw [heq]; exact List.mem_cons_self _ _
    · exact List.mem_cons_of_mem _ (ih p (List.mem_of_mem_filter hp'))

theorem dedupKeys_covers (l : List (String × String)) :
    ∀ f, f ∈ l.map (·.1) → ∃ t, (f, t) ∈ dedupKeys l := by
  induction l with
  | nil => intro f hf; cases hf
  | cons q qs ih =>
    intro f hf
    by_cases hq : f = q.1
    · subst hq
      exact ⟨q.2, by simp [dedupKeys]⟩
    · rcases List.mem_cons.mp hf with heq | hf'
      · exact absurd heq hq
      · obtain ⟨t, ht⟩ := ih f hf'
        refine ⟨t, ?_⟩
        simp only [dedupKeys]
        refine List.mem_cons_of_mem _ (List.mem_filter.mpr ⟨ht, ?_⟩)
        simp [hq]

theorem checkTables_events (names : List String) (l : List (String × String)) :
    ∀ ev ∈ (checkTables names l).2, ∃ f t, ev = ResolveEvent.tableCheck f t := by
  induction l with
  | nil => intro ev hev; cases hev
  | cons p ps ih =>
    intro ev hev
    obtain ⟨f, t⟩ := p
    by_cases h : names.contains t
    · simp only [checkTables, if_pos h] at hev
      rcases List.mem_cons.mp hev with heq | hev'
      · exact ⟨f, t, heq⟩
      · exact ih ev hev'
    · simp only [checkTables, if_neg h] at hev
      rcases List.mem_cons.mp hev with heq | hev'
      · exact ⟨f, t, heq⟩
      · cases hev'

theorem checkTables_none_mem (names : List String) (l : List (String × String))
    (h : (checkTables names l).1 = none) :
    ∀ p ∈ l, p.2 ∈ names := by
  induction l with
  | nil => intro p hp; cases hp
  | cons q qs ih =>
    obtain ⟨f, t⟩ := q
    by_cases hc : names.contains t
    · simp only [checkTables, if_pos hc] at h
      intro p hp
      rcases List.mem_cons.mp hp with heq | hp'
      · rw [heq]
        exact List.elem_iff.mp hc
      · exact ih h p hp'
    · simp only [checkTables, if_neg hc] at h
      cases h

theorem checkTables_err (names : List String) (l : List (String × String))
    (p0 : String × String)
    (hfind : l.find? (fun p => !names.contains p.2) = some p0) :
    (checkTables names l).1 = some (.tableNotFound p0.1 p0.2) := by
  induction l with
  | nil => cases hfind
  | cons q qs ih =>
    obtain ⟨f, t⟩ := q
    rw [List.find?_cons] at hfind
    by_cases hc : names.contains t
    · simp only [hc, Bool.not_true, if_neg] at hfind
      simp only [checkTables, if_pos hc]
      exact ih hfind
    · simp only [Bool.not_eq_true] at hc
      simp only [hc, Bool.not_false, if_pos] at hfind
      injection hfind with hfind
      subst hfind
      simp only [checkTables, hc]
      rfl

theorem deriveNames_ok_keys (rule : String → Option Nat) (rs : String)
    (files : List String) (pairs : List (String × String))
    (h : deriveNames rule rs files = .ok pairs) :
    pairs.map (·.1) = files := by
  induction files generalizing pairs with
  | nil =>
    simp only [deriveNames] at h
    injection h with h
    subst h
    rfl
  | cons f fs ih =>
    simp only [deriveNames] at h
    cases hr : rule f with
    | none => rw [hr] at h; cases h
    | some pos =>
      rw [hr] at h
      cases hd : deriveNames rule rs fs with
      | error e => rw [hd] at h; cases h
      | ok rest =>
        rw [hd] at h
        injection h with h
        subst h
        simp [ih rest hd]

/-! ## `resolveFrom` and `_process_user_args` inversions -/

theorem resolveFrom_fst (cfg : Config) (w : World) (files : List String)
    (evs0 : List ResolveEvent) :
    (resolveFrom cfg w files evs0).1 = (resolveFrom cfg w files []).1 := by
  unfold resolveFrom
  cases hd : deriveNames cfg.rule cfg.regex_suffix files with
  | error e => rfl
  | ok pairs =>
    cases hc : checkTables (MetaData.reflect w.db ⟨[]⟩).names (dedupKeys pairs) with
    | mk r tevs =>
      simp only [hc]
      cases r <;> rfl

theorem resolveFrom_ok_inv (cfg : Config) (w : World) (files : List String)
    (evs0 : List ResolveEvent) (plan : List (String × String)) (m : MetaData)
    (h : (resolveFrom cfg w files evs0).1 = .ok (plan, m)) :
    ∃ pairs, deriveNames cfg.rule cfg.regex_suffix files = .ok pairs ∧
      plan = dedupKeys pairs ∧ m = MetaData.reflect w.db ⟨[]⟩ ∧
      (checkTables (MetaData.reflect w.db ⟨[]⟩).names plan).1 = none := by
  unfold resolveFrom at h
  cases hd : deriveNames cfg.rule cfg.regex_suffix files with
  | error e => rw [hd] at h; cases h
  | ok pairs =>
    rw [hd] at h
    cases hc : checkTables (MetaData.reflect w.db ⟨[]⟩).names (dedupKeys pairs) with
    | mk r tevs =>
      simp only [hc] at h
      cases r with
      | some e => simp only at h; cases h
      | none =>
        simp only at h
        injection h with h
        rw [Prod.mk.injEq] at h
        obtain ⟨h1, h2⟩ := h
        refine ⟨pairs, rfl, h1.symm, h2.symm, ?_⟩
        rw [← h1, hc]

theorem resolveFrom_err_name (cfg : Config) (w : World) (files : List String)
    (evs0 : List ResolveEvent) (e : ResolveErr)
    (hd : deriveNames cfg.rule cfg.regex_suffix files = .error e) :
    (resolveFrom cfg w files evs0).1 = .error e := by
  unfold resolveFrom
  rw [hd]

theorem resolveFrom_err_table (cfg : Config) (w : World) (files : List String)
    (evs0 : List ResolveEvent) (pairs : List (String × String)) (e : ResolveErr)
    (hd : deriveNames cfg.rule cfg.regex_suffix files = .ok pairs)
    (hc : (checkTables (MetaData.reflect w.db ⟨[]⟩).names (dedupKeys pairs)).1 = some e) :
    (resolveFrom cfg w files evs0).1 = .error e := by
  unfold resolveFrom
  rw [hd]
  cases hcc : checkTables (MetaData.reflect w.db ⟨[]⟩).names (dedupKeys pairs) with
  | mk r tevs =>
    rw [hcc] at hc
    simp only at hc
    subst hc
    simp only [hcc]

theorem resolveFrom_events (cfg : Config) (w : World) (files : List String) :
    ∀ ev ∈ (resolveFrom cfg w files []).2, ∃ f t, ev = ResolveEvent.tableCheck f t := by
  unfold resolveFrom
  cases hd : deriveNames cfg.rule cfg.regex_suffix files with
  | error e => intro ev hev; cases hev
  | ok pairs =>
    cases hc : checkTables (MetaData.reflect w.db ⟨[]⟩).names (dedupKeys pairs) with
    | mk r tevs =>
      have hsub := checkTables_events (MetaData.reflect w.db ⟨[]⟩).names (dedupKeys pairs)
      rw [hc] at hsub
      simp only [hc]
      cases r with
      | some e =>
        intro ev hev
        simp only [List.nil_append] at hev
        exact hsub ev hev
      | none =>
        intro ev hev
        simp only [List.nil_append] at hev
        exact hsub ev hev

theorem _process_user_args_fst (cfg : Config) (w : World)
    (hfiles : ∀ t ∈ cfg.tables, w.isFile t = true) :
    (_process_user_args cfg w).1 = (resolveFrom cfg w (filesOf cfg w) []).1 := by
  unfold _process_user_args filesOf
  by_cases he : cfg.tables.isEmpty
  · simp only [he, if_true]
  · simp only [he, if_false]
    have hnone := checkFiles_none w.isFile cfg.tables hfiles
    cases hcf : checkFiles w.isFile cfg.tables with
    | mk r evs =>
      rw [hcf] at hnone
      simp only at hnone
      subst hnone
      exact resolveFrom_fst cfg w cfg.tables evs

theorem _process_user_args_empty (cfg : Config) (w : World)
    (hempty : cfg.tables = []) :
    _process_user_args cfg w = resolveFrom cfg w w.dirFiles [] := by
  unfold _process_user_args
  rw [hempty]
  rfl

/-! ## Claim C7 (missing explicit file fails fast) -/

/-- C7: with a non-empty explicit file list, any missing file fails the
whole resolution with `FileNotFoundError` naming the first missing file;
no plan is returned, the resolver's trace holds only file-existence
checks (the table-existence loop is never reached), and every possible
`_main` execution produces an empty event trace — no script execution,
no task, no upload is attempted for any file. -/
theorem explicitFileList_missing_failsFast (cfg : Config) (w : World)
    (hne : cfg.tables ≠ [])
    (hmiss : ∃ t ∈ cfg.tables, w.isFile t = false) :
    (∃ t0, cfg.tables.find? (fun t => !w.isFile t) = some t0 ∧
      (_process_user_args cfg w).1 = .error (.fileNotFound t0))
    ∧ (∀ ev ∈ (_process_user_args cfg w).2, ∃ f, ev = ResolveEvent.fileCheck f)
    ∧ (∀ tr err, MainRun cfg w tr err → tr = []) := by
  have hemp : cfg.tables.isEmpty = false := List.isEmpty_eq_false.mpr hne
  obtain ⟨t0, hfind, hres⟩ := checkFiles_found w.isFile cfg.tables hmiss
  have hpua : _process_user_args cfg w =
      (.error (.fileNotFound t0), (checkFiles w.isFile cfg.tables).2) := by
    unfold _process_user_args
    rw [hemp]
    cases hcf : checkFiles w.isFile cfg.tables with
    | mk r evs =>
      rw [hcf] at hres
      simp only at hres
      subst hres
      rfl
  refine ⟨⟨t0, hfind, by rw [hpua]⟩, ?_, ?_⟩
  · rw [hpua]
    exact checkFiles_events w.isFile cfg.tables
  · intro tr err h
    cases h with
    | resolveFail he => rfl
    | preFail hok hpre =>
      rw [hpua] at hok
      cases hok
    | run hok hpre hint hpost =>
      rw [hpua] at hok
      cases hok

/-- The default name-extraction rule `\\.csv`: first match of a literal
`.csv`; for names that merely end in `.csv` the match starts 4 characters
before the end. -/
def ruleCsv (s : String) : Option Nat :=
  if (".csv".data).isSuffixOf s.data then some (s.length - 4) else none

/-- Concrete run configuration: explicit list naming a missing file. -/
def cfg7 : Config :=
  { tables := ["patients.csv", "missing.csv"], regex_suffix := "\\.csv",
    rule := ruleCsv, chunk_size := 2, threads := 5, dry_run := false,
    execute_first := "", execute_last := "" }

/-- Concrete world: only `patients.csv` exists. -/
def w7 : World :=
  { dirFiles := ["patients.csv"], isFile := fun s => s == "patients.csv",
    fileRows := fun _ => [], db := [("patients", [])],
    scriptContent := fun _ => some "SELECT 1", execOk := fun _ => true }

/-- Witness for C7: the explicit list names `missing.csv`, absent from
the directory; resolution fails naming it and the orchestrator trace is
empty. -/
theorem explicitFileList_missing_failsFast_witness :
    (cfg7.tables ≠ [] ∧ ∃ t ∈ cfg7.tables, w7.isFile t = false)
    ∧ ((∃ t0, cfg7.tables.find? (fun t => !w7.isFile t) = some t0 ∧
        (_process_user_args cfg7 w7).1 = .error (.fileNotFound t0))
      ∧ (∀ ev ∈ (_process_user_args cfg7 w7).2, ∃ f, ev = ResolveEvent.fileCheck f)
      ∧ (∀ tr err, MainRun cfg7 w7 tr err → tr = [])) :=
  ⟨⟨by decide, ⟨"missing.csv", by decide, by decide⟩⟩,
    explicitFileList_missing_failsFast cfg7 w7 (by decide)
      ⟨"missing.csv", by decide, by decide⟩⟩

/-! ## Claim C8 (table-name derivation) -/

/-- C8: whenever resolution succeeds, every plan entry's table name is
exactly the file name's prefix before the first position matched by the
name-extraction rule; and whenever some considered file name has no
match, the whole resolution fails (the file is not skipped) with the
`ValueError` naming the first offending file and the configured rule.
The hypothesis restricts to runs where the explicit files exist, since a
missing file fails earlier with a different error (claim C7). -/
theorem tableName_derivation (cfg : Config) (w : World)
    (hfiles : ∀ t ∈ cfg.tables, w.isFile t = true) :
    (∀ plan m, (_process_user_args cfg w).1 = .ok (plan, m) →
      ∀ p ∈ plan, ∃ pos, cfg.rule p.1 = some pos ∧ p.2 = p.1.take pos)
    ∧ (∀ f0, (filesOf cfg w).find? (fun f => (cfg.rule f).isNone) = some f0 →
      (_process_user_args cfg w).1 = .error (.namePattern f0 cfg.regex_suffix)) := by
  have hfst := _process_user_args_fst cfg w hfiles
  constructor
  · intro plan m h
    rw [hfst] at h
    obtain ⟨pairs, hd, hplan, _, _⟩ :=
      resolveFrom_ok_inv cfg w (filesOf cfg w) [] plan m h
    intro p hp
    exact deriveNames_ok_spec cfg.rule cfg.regex_suffix (filesOf cfg w) pairs hd p
      (mem_dedupKeys pairs p (hplan ▸ hp))
  · intro f0 hfind
    rw [hfst]
    exact resolveFrom_err_name cfg w (filesOf cfg w) [] _
      (deriveNames_err cfg.rule cfg.regex_suffix (filesOf cfg w) f0 hfind)

/-- Concrete success configuration shared by the resolver witnesses. -/
def cfgA : Config :=
  { tables := ["patients.csv"], regex_suffix := "\\.csv",
    rule := ruleCsv, chunk_size := 2, threads := 5, dry_run := false,
    execute_first := "", execute_last := "" }

/-- Concrete world for `cfgA`: the file exists and its table is in the
database. -/
def wA : World :=
  { dirFiles := ["patients.csv"], isFile := fun s => s == "patients.csv",
    fileRows := fun _ => [["1"], ["2"], ["3"]],
    db := [("patients", [("id", SAType.Integer)])],
    scriptContent := fun _ => some "SELECT 1", execOk := fun _ => true }

/-- Witness for C8 at `cfgA`/`wA`, where every explicit file exists. -/
theorem tableName_derivation_witness :
    (∀ t ∈ cfgA.tables, wA.isFile t = true)
    ∧ ((∀ plan m, (_process_user_args cfgA wA).1 = .ok (plan, m) →
        ∀ p ∈ plan, ∃ pos, cfgA.rule p.1 = some pos ∧ p.2 = p.1.take pos)
      ∧ (∀ f0, (filesOf cfgA wA).find? (fun f => (cfgA.rule f).isNone) = some f0 →
        (_process_user_args cfgA wA).1 = .error (.namePattern f0 cfgA.regex_suffix))) :=
  ⟨by decide, tableName_derivation cfgA wA (by decide)⟩

/-! ## Claim C9 (derived tables must exist in the catalog) -/

/-- C9: a plan is returned only if every derived table name exists in the
reflected metadata (so all files validate), and if name derivation
succeeds but some derived table is missing from the catalog, resolution
fails with the `ValueError` naming both the source file and the expected
table of the first missing entry. -/
theorem planTables_validated (cfg : Config) (w : World)
    (hfiles : ∀ t ∈ cfg.tables, w.isFile t = true) :
    (∀ plan m, (_process_user_args cfg w).1 = .ok (plan, m) →
      ∀ p ∈ plan, p.2 ∈ m.names)
    ∧ (∀ pairs p0, deriveNames cfg.rule cfg.regex_suffix (filesOf cfg w) = .ok pairs →
      (dedupKeys pairs).find?
        (fun p => !(MetaData.reflect w.db ⟨[]⟩).names.contains p.2) = some p0 →
      (_process_user_args cfg w).1 = .error (.tableNotFound p0.1 p0.2)) := by
  have hfst := _process_user_args_fst cfg w hfiles
  constructor
  · intro plan m h
    rw [hfst] at h
    obtain ⟨pairs, hd, hplan, hm, hchk⟩ :=
      resolveFrom_ok_inv cfg w (filesOf cfg w) [] plan m h
    intro p hp
    rw [hm]
    exact checkTables_none_mem (MetaData.reflect w.db ⟨[]⟩).names plan hchk p hp
  · intro pairs p0 hd hfind
    rw [hfst]
    exact resolveFrom_err_table cfg w (filesOf cfg w) [] pairs _ hd
      (checkTables_err (MetaData.reflect w.db ⟨[]⟩).names (dedupKeys pairs) p0 hfind)

/-- Witness for C9 at `cfgA`/`wA`. -/
theorem planTables_validated_witness :
    (∀ t ∈ cfgA.tables, wA.isFile t = true)
    ∧ ((∀ plan m, (_process_user_args cfgA wA).1 = .ok (plan, m) →
        ∀ p ∈ plan, p.2 ∈ m.names)
      ∧ (∀ pairs p0, deriveNames cfgA.rule cfgA.regex_suffix (filesOf cfgA wA) = .ok pairs →
        (dedupKeys pairs).find?
          (fun p => !(MetaData.reflect wA.db ⟨[]⟩).names.contains p.2) = some p0 →
        (_process_user_args cfgA wA).1 = .error (.tableNotFound p0.1 p0.2))) :=
  ⟨by decide, planTables_validated cfgA wA (by decide)⟩

/-! ## Claim C10 (empty list: every directory file, unfiltered) -/

/-- C10: with an empty explicit list the resolver takes every regular
file of the directory without filtering by the name-extraction rule: a
successful plan covers every directory file, the resolver performs no
per-file existence checks (its trace holds only table checks), and a
single directory file whose name has no rule match — a file the user
never named — fails the entire resolution with the `ValueError` naming
it. -/
theorem emptyList_enumerates_unfiltered (cfg : Config) (w : World)
    (hempty : cfg.tables = []) :
    (∀ f0, w.dirFiles.find? (fun f => (cfg.rule f).isNone) = some f0 →
      (_process_user_args cfg w).1 = .error (.namePattern f0 cfg.regex_suffix))
    ∧ (∀ plan m, (_process_user_args cfg w).1 = .ok (plan, m) →
      ∀ f ∈ w.dirFiles, ∃ t, (f, t) ∈ plan)
    ∧ (∀ ev ∈ (_process_user_args cfg w).2, ∃ f t, ev = ResolveEvent.tableCheck f t) := by
  have heq := _process_user_args_empty cfg w hempty
  refine ⟨?_, ?_, ?_⟩
  · intro f0 hfind
    rw [heq]
    exact resolveFrom_err_name cfg w w.dirFiles [] _
      (deriveNames_err cfg.rule cfg.regex_suffix w.dirFiles f0 hfind)
  · intro plan m h
    rw [heq] at h
    obtain ⟨pairs, hd, hplan, _, _⟩ :=
      resolveFrom_ok_inv cfg w w.dirFiles [] plan m h
    intro f hf
    have hkeys := deriveNames_ok_keys cfg.rule cfg.regex_suffix w.dirFiles pairs hd
    rw [hplan]
    exact dedupKeys_covers pairs f (hkeys ▸ hf)
  · rw [heq]
    exact resolveFrom_events cfg w w.dirFiles

/-- Concrete configuration for C10: no explicit list, and the directory
holds a `README` that matches no rule. -/
def cfg10 : Config :=
  { tables := [], regex_suffix := "\\.csv",
    rule := ruleCsv, chunk_size := 2, threads := 5, dry_run := false,
    execute_first := "", execute_last := "" }

/-- Concrete world for `cfg10`. -/
def w10 : World :=
  { dirFiles := ["README", "patients.csv"], isFile := fun _ => true,
    fileRows := fun _ => [],
    db := [("patients", [("id", SAType.Integer)])],
    scriptContent := fun _ => some "SELECT 1", execOk := fun _ => true }

/-- Witness for C10: the resolution of `cfg10`/`w10` is decided by the
un-named `README`. -/
theorem emptyList_enumerates_unfiltered_witness :
    cfg10.tables = []
    ∧ ((∀ f0, w10.dirFiles.find? (fun f => (cfg10.rule f).isNone) = some f0 →
        (_process_user_args cfg10 w10).1 = .error (.namePattern f0 cfg10.regex_suffix))
      ∧ (∀ plan m, (_process_user_args cfg10 w10).1 = .ok (plan, m) →
        ∀ f ∈ w10.dirFiles, ∃ t, (f, t) ∈ plan)
      ∧ (∀ ev ∈ (_process_user_args cfg10 w10).2, ∃ f t, ev = ResolveEvent.tableCheck f t)) :=
  ⟨rfl, emptyList_enumerates_unfiltered cfg10 w10 rfl⟩

/-! ## Claim C6 (catalog refresh semantics)

`_execute_sql` refreshes by calling `metadata.reflect(...)` on the very
same `MetaData` object every component shares — this in-place mutation is
the only way the refresh is visible to `_main` at all, since
`_execute_sql` returns `None`.  SQLAlchemy's `reflect` only adds tables
not already present: the snapshot is mutated incrementally, not replaced,
and tables dropped by the script survive in the catalog. -/

/-- Catalog holding a stale table `a`. -/
def m6 : MetaData := ⟨[("a", [])]⟩

/-- World after a script dropped `a` and created `b`: the database now
holds only `b`. -/
def w6 : World :=
  { dirFiles := [], isFile := fun _ => false, fileRows := fun _ => [],
    db := [("b", [])],
    scriptContent := fun _ => some "DROP TABLE a", execOk := fun _ => true }

/-- Counterexample to C6 as stated: executing a script refreshes the
catalog, but the result is the old snapshot plus the newly discovered
tables — not the database's current state.  The stale table `a`, absent
from the database, is still in the refreshed catalog, so the refresh is
not replace-the-whole-object (`refresh_spec`). -/
theorem catalogRefresh_not_replace_counterexample :
    (_execute_sql w6 m6 "drop.sql" false .post).2.2 = ⟨[("a", []), ("b", [])]⟩
    ∧ refresh_spec w6.db m6 = ⟨[("b", [])]⟩
    ∧ (_execute_sql w6 m6 "drop.sql" false .post).2.2 ≠ refresh_spec w6.db m6
    ∧ ("a", []) ∈ (_execute_sql w6 m6 "drop.sql" false .post).2.2.tables
    ∧ ("a", []) ∉ w6.db := by
  refine ⟨by decide, by decide, by decide, by decide, by decide⟩

/-- C6 amended: after each (non-dry) successful script execution the
Schema Catalog is refreshed, but by reflecting into the existing shared
metadata object in place: the refresh is additive — every table already
in the snapshot stays (even if the script dropped it) and tables newly
present in the database are added — rather than an atomic replacement of
the snapshot by the database's current state. -/
theorem catalogRefresh_in_place_additive (w : World) (m : MetaData)
    (path : String) (ph : Phase) (s : String)
    (hs : w.scriptContent path = some s) (hx : w.execOk s = true) :
    _execute_sql w m path false ph =
      ([Event.script ph true], none, MetaData.reflect w.db m)
    ∧ (∀ t ∈ m.tables, t ∈ (MetaData.reflect w.db m).tables)
    ∧ (∀ t ∈ w.db, t.1 ∈ (MetaData.reflect w.db m).names) := by
  refine ⟨?_, ?_, ?_⟩
  · simp only [_execute_sql, if_neg (by simp : ¬(false = true)), hs, hx, if_pos]
  · intro t ht
    simp only [MetaData.reflect]
    exact List.mem_append_left _ ht
  · intro t ht
    simp only [MetaData.reflect, MetaData.names, List.map_append]
    by_cases hc : (m.tables.map (·.1)).contains t.1
    · exact List.mem_append_left _ (List.elem_iff.mp hc)
    · refine List.mem_append_right _ ?_
      refine List.mem_map.mpr ⟨t, ?_, rfl⟩
      refine List.mem_filter.mpr ⟨ht, ?_⟩
      simp only [MetaData.names] at hc ⊢
      cases h2 : (List.map (fun x => x.1) m.tables).contains t.1 with
      | false => simp [h2]
      | true => exact absurd h2 hc

/-- Witness for the amended C6 at the concrete dropped-table state. -/
theorem catalogRefresh_in_place_additive_witness :
    (w6.scriptContent "drop.sql" = some "DROP TABLE a"
      ∧ w6.execOk "DROP TABLE a" = true)
    ∧ (_execute_sql w6 m6 "drop.sql" false .post =
        ([Event.script .post true], none, MetaData.reflect w6.db m6)
      ∧ (∀ t ∈ m6.tables, t ∈ (MetaData.reflect w6.db m6).tables)
      ∧ (∀ t ∈ w6.db, t.1 ∈ (MetaData.reflect w6.db m6).names)) :=
  ⟨⟨rfl, rfl⟩, catalogRefresh_in_place_additive w6 m6 "drop.sql" .post
    "DROP TABLE a" rfl rfl⟩

/-! ## Event-shape lemmas for the orchestrator -/

theorem _execute_sql_err_evs {w : World} {m : MetaData} {path : String}
    {dry : Bool} {ph : Phase} {evs : List Event} {e : ScriptErr} {m' : MetaData}
    (h : _execute_sql w m path dry ph = (evs, some e, m')) :
    evs = [] ∧ m' = m := by
  unfold _execute_sql at h
  cases dry with
  | true => simp at h
  | false =>
    simp only [Bool.false_eq_true, if_false] at h
    cases hc : w.scriptContent path with
    | none =>
      rw [hc] at h
      dsimp only at h
      rw [Prod.mk.injEq, Prod.mk.injEq] at h
      exact ⟨h.1.symm, h.2.2.symm⟩
    | some sql =>
      rw [hc] at h
      dsimp only at h
      by_cases hx : w.execOk sql
      · rw [if_pos hx] at h
        simp at h
      · rw [if_neg hx] at h
        rw [Prod.mk.injEq, Prod.mk.injEq] at h
        exact ⟨h.1.symm, h.2.2.symm⟩

theorem _execute_sql_ok_evs {w : World} {m : MetaData} {path : String}
    {dry : Bool} {ph : Phase} {evs : List Event} {m' : MetaData}
    (h : _execute_sql w m path dry ph = (evs, none, m')) :
    ∃ b, evs = [Event.script ph b] := by
  unfold _execute_sql at h
  cases dry with
  | true =>
    rw [if_pos rfl] at h
    rw [Prod.mk.injEq] at h
    exact ⟨false, h.1.symm⟩
  | false =>
    simp only [Bool.false_eq_true, if_false] at h
    cases hc : w.scriptContent path with
    | none => rw [hc] at h; dsimp only at h; simp at h
    | some sql =>
      rw [hc] at h
      dsimp only at h
      by_cases hx : w.execOk sql
      · rw [if_pos hx] at h
        rw [Prod.mk.injEq] at h
        exact ⟨true, h.1.symm⟩
      · rw [if_neg hx] at h
        simp at h

theorem _execute_sql_events (w : World) (m : MetaData) (path : String)
    (dry : Bool) (ph : Phase) :
    ∀ e ∈ (_execute_sql w m path dry ph).1, ∃ b, e = Event.script ph b := by
  unfold _execute_sql
  cases dry with
  | true =>
    intro e he
    simp only [if_pos rfl] at he
    rcases List.mem_cons.mp he with heq | h0
    · exact ⟨false, heq⟩
    · cases h0
  | false =>
    simp only [Bool.false_eq_true, if_false]
    cases hc : w.scriptContent path with
    | none => intro e he; cases he
    | some sql =>
      dsimp only
      by_cases hx : w.execOk sql
      · rw [if_pos hx]
        intro e he
        rcases List.mem_cons.mp he with heq | h0
        · exact ⟨true, heq⟩
        · cases h0
      · rw [if_neg hx]
        intro e he
        cases he

theorem preStep_events (cfg : Config) (w : World) (m : MetaData) :
    ∀ e ∈ (preStep cfg w m).1, ∃ b, e = Event.script .pre b := by
  unfold preStep
  by_cases hf : cfg.execute_first = ""
  · rw [if_pos hf]; intro e he; cases he
  · rw [if_neg hf]; exact _execute_sql_events w m cfg.execute_first cfg.dry_run .pre

theorem postStep_events (cfg : Config) (w : World) (m : MetaData) :
    ∀ e ∈ (postStep cfg w m).1, ∃ b, e = Event.script .post b := by
  unfold postStep
  by_cases hf : cfg.execute_last = ""
  · rw [if_pos hf]; intro e he; cases he
  · rw [if_neg hf]; exact _execute_sql_events w m cfg.execute_last cfg.dry_run .post

theorem preStep_ok_script {cfg : Config} {w : World} {m : MetaData}
    {evs : List Event} {m1 : MetaData}
    (hne : cfg.execute_first ≠ "")
    (h : preStep cfg w m = (evs, none, m1)) :
    ∃ b, evs = [Event.script .pre b] := by
  unfold preStep at h
  rw [if_neg hne] at h
  exact _execute_sql_ok_evs h

theorem preStep_err_evs {cfg : Config} {w : World} {m : MetaData}
    {evs : List Event} {e : ScriptErr} {m' : MetaData}
    (h : preStep cfg w m = (evs, some e, m')) :
    evs = [] := by
  unfold preStep at h
  by_cases hf : cfg.execute_first = ""
  · rw [if_pos hf] at h; simp at h
  · rw [if_neg hf] at h
    exact (_execute_sql_err_evs h).1

/-- The post-script executes (really or as a logged dry skip) whenever it
is configured and its own execution cannot fail. -/
theorem postStep_runs {cfg : Config} {w : World} {m : MetaData}
    (hne : cfg.execute_last ≠ "")
    (hok : cfg.dry_run = true ∨
      ∃ s, w.scriptContent cfg.execute_last = some s ∧ w.execOk s = true) :
    ∃ b m2, postStep cfg w m = ([Event.script .post b], none, m2) := by
  unfold postStep
  rw [if_neg hne]
  unfold _execute_sql
  rcases hok with hdry | ⟨s, hs, hx⟩
  · rw [if_pos hdry]
    exact ⟨false, m, rfl⟩
  · cases hdry : cfg.dry_run with
    | true => exact ⟨false, m, rfl⟩
    | false =>
      simp only [Bool.false_eq_true, if_false, hs, hx, if_pos]
      exact ⟨true, MetaData.reflect w.db m, rfl⟩

/-- Same for the pre-script: under these conditions `preStep` cannot
fail. -/
theorem preStep_no_fail {cfg : Config} {w : World} {m : MetaData}
    (hok : cfg.dry_run = true ∨ cfg.execute_first = "" ∨
      ∃ s, w.scriptContent cfg.execute_first = some s ∧ w.execOk s = true) :
    ∃ evs m1, preStep cfg w m = (evs, none, m1) := by
  unfold preStep
  by_cases hf : cfg.execute_first = ""
  · rw [if_pos hf]
    exact ⟨[], m, rfl⟩
  · rw [if_neg hf]
    unfold _execute_sql
    rcases hok with hdry | hf' | ⟨s, hs, hx⟩
    · rw [if_pos hdry]
      exact ⟨[Event.script .pre false], m, rfl⟩
    · exact absurd hf' hf
    · cases hdry : cfg.dry_run with
      | true => exact ⟨[Event.script .pre false], m, rfl⟩
      | false =>
        simp only [Bool.false_eq_true, if_false, hs, hx, if_pos]
        exact ⟨[Event.script .pre true], MetaData.reflect w.db m, rfl⟩

theorem processChunks_events (dry : Bool) (file table : String)
    (dtypes : List (Option PdDtype)) :
    ∀ (i : Nat) (cs : List (List (List String))),
    ∀ e ∈ (processChunks dry file table dtypes i cs).1,
      (∃ j l, e = Event.chunk file j l) ∨ (∃ j l, e = Event.append table j l) := by
  intro i cs
  induction cs generalizing i with
  | nil => intro e he; cases he
  | cons c cs ih =>
    intro e he
    simp only [processChunks] at he
    by_cases hok : chunkOk dtypes c
    · rw [if_pos hok] at he
      rcases List.mem_cons.mp he with heq | he'
      · exact Or.inl ⟨i, c.length, heq⟩
      · rcases List.mem_append.mp he' with ha | hr
        · cases dry with
          | true => cases ha
          | false =>
            rcases List.mem_cons.mp ha with heq | h0
            · exact Or.inr ⟨i, c.length, heq⟩
            · cases h0
        · exact ih (i + 1) e hr
    · rw [if_neg hok] at he
      cases he

theorem processChunks_dry_noappend (file table : String)
    (dtypes : List (Option PdDtype)) :
    ∀ (i : Nat) (cs : List (List (List String))),
    ∀ e ∈ (processChunks true file table dtypes i cs).1,
      ∃ j l, e = Event.chunk file j l := by
  intro i cs
  induction cs generalizing i with
  | nil => intro e he; cases he
  | cons c cs ih =>
    intro e he
    simp only [processChunks] at he
    by_cases hok : chunkOk dtypes c
    · rw [if_pos hok] at he
      rcases List.mem_cons.mp he with heq | he'
      · exact ⟨i, c.length, heq⟩
      · rcases List.mem_append.mp he' with ha | hr
        · cases ha
        · exact ih (i + 1) e hr
    · rw [if_neg hok] at he
      cases he

theorem taskRun_events_isTask (cfg : Config) (w : World) (m : MetaData)
    (p : String × String) :
    ∀ e ∈ taskRun cfg w m p, e.isTask = true := by
  intro e he
  unfold taskRun at he
  rcases List.mem_cons.mp he with heq | he'
  · rw [heq]; rfl
  · rcases List.mem_append.mp he' with hm | hl
    · unfold _process_file at hm
      rcases processChunks_events cfg.dry_run p.1 p.2 _ 0 _ e hm with ⟨j, l, heq⟩ | ⟨j, l, heq⟩
      · rw [heq]; rfl
      · rw [heq]; rfl
    · rcases List.mem_cons.mp hl with heq | h0
      · rw [heq]; rfl
      · cases h0

theorem taskRun_taskStart_inv (cfg : Config) (w : World) (m : MetaData)
    (p : String × String) (f : String)
    (h : Event.taskStart f ∈ taskRun cfg w m p) : f = p.1 := by
  unfold taskRun at h
  rcases List.mem_cons.mp h with heq | h'
  · injection heq
  · rcases List.mem_append.mp h' with hm | hl
    · unfold _process_file at hm
      rcases processChunks_events cfg.dry_run p.1 p.2 _ 0 _ _ hm with ⟨j, l, heq⟩ | ⟨j, l, heq⟩
      · cases heq
      · cases heq
    · rcases List.mem_cons.mp hl with heq | h0
      · cases heq
      · cases h0

theorem taskRun_has_taskEnd (cfg : Config) (w : World) (m : MetaData)
    (p : String × String) :
    ∃ ok, Event.taskEnd p.1 ok ∈ taskRun cfg w m p := by
  unfold taskRun
  refine ⟨(_process_file cfg.dry_run cfg.chunk_size (m.columnsOf p.2)
    p.1 p.2 (w.fileRows p.1)).2, ?_⟩
  refine List.mem_cons_of_mem _ (List.mem_append_right _ ?_)
  exact List.mem_cons_self _ _

/-! ## Interleaving of task runs -/

theorem interleave_singleton {α : Type} (l : List α) : Interleave [l] l := by
  induction l with
  | nil =>
    apply Interleave.nil
    intro x hx
    rcases List.mem_cons.mp hx with heq | h0
    · exact heq
    · cases h0
  | cons a rest ih => exact Interleave.cons 0 a rest rfl ih

theorem mid_taskStart_taskEnd {cfg : Config} {w : World} {m : MetaData}
    {plan : List (String × String)} {mid : List Event}
    (hint : Interleave (plan.map (taskRun cfg w m)) mid) :
    ∀ f, Event.taskStart f ∈ mid → ∃ ok, Event.taskEnd f ok ∈ mid := by
  intro f hf
  obtain ⟨l, hl, hfl⟩ := interleave_mem hint _ hf
  obtain ⟨p, hp, heq⟩ := List.mem_map.mp hl
  subst heq
  have hfp := taskRun_taskStart_inv cfg w m p f hfl
  subst hfp
  obtain ⟨ok, hok⟩ := taskRun_has_taskEnd cfg w m p
  obtain ⟨i, hi⟩ := List.mem_iff_getElem?.mp hl
  exact ⟨ok, interleave_mem_out hint i _ hi _ hok⟩

theorem mid_plan_taskEnd {cfg : Config} {w : World} {m : MetaData}
    {plan : List (String × String)} {mid : List Event}
    (hint : Interleave (plan.map (taskRun cfg w m)) mid) :
    ∀ p ∈ plan, ∃ ok, Event.taskEnd p.1 ok ∈ mid := by
  intro p hp
  obtain ⟨ok, hok⟩ := taskRun_has_taskEnd cfg w m p
  have hl : taskRun cfg w m p ∈ plan.map (taskRun cfg w m) :=
    List.mem_map_of_mem _ hp
  obtain ⟨i, hi⟩ := List.mem_iff_getElem?.mp hl
  exact ⟨ok, interleave_mem_out hint i _ hi _ hok⟩

/-- The three ways `_main` can unwind, as a disjunction usable for
inversion. -/
theorem mainRun_cases {cfg : Config} {w : World} {tr : List Event}
    {err : Option RunErr} (h : MainRun cfg w tr err) :
    (∃ e, (_process_user_args cfg w).1 = .error e ∧ tr = [] ∧
      err = some (.resolve e))
    ∨ (∃ plan m e m', (_process_user_args cfg w).1 = .ok (plan, m) ∧
        preStep cfg w m = ([], some e, m') ∧ tr = [] ∧ err = some (.script e))
    ∨ (∃ plan m preEvs m1 mid postEvs postErr m2,
        (_process_user_args cfg w).1 = .ok (plan, m) ∧
        preStep cfg w m = (preEvs, none, m1) ∧
        Interleave (plan.map (taskRun cfg w m1)) mid ∧
        postStep cfg w m1 = (postEvs, postErr, m2) ∧
        tr = preEvs ++ mid ++ postEvs ∧ err = postErr.map .script) := by
  cases h with
  | resolveFail he => exact Or.inl ⟨_, he, rfl, rfl⟩
  | preFail hok hpre =>
    have hevs := preStep_err_evs hpre
    subst hevs
    exact Or.inr (Or.inl ⟨_, _, _, _, hok, hpre, rfl, rfl⟩)
  | run hok hpre hint hpost =>
    exact Or.inr (Or.inr ⟨_, _, _, _, _, _, _, _, hok, hpre, hint, hpost, rfl, rfl⟩)

/-! ## Claim C2 (phase bracketing) -/

/-- C2: every possible trace of `_main` splits as pre-script events,
then task events, then post-script events: no Load Task event occurs
before the pre-script phase completed (when a pre-script is configured
and any task ran, its completion event precedes all task events) and no
task event follows a post-script event; moreover every task that started
also reached its terminal state within the task segment, i.e. before the
post-script begins.  Script phases therefore never overlap the
concurrent uploading phase. -/
theorem phase_bracketing (cfg : Config) (w : World) (tr : List Event)
    (err : Option RunErr) (h : MainRun cfg w tr err) :
    ∃ p mid q, tr = p ++ mid ++ q
      ∧ (∀ e ∈ p, ∃ b, e = Event.script .pre b)
      ∧ (∀ e ∈ mid, e.isTask = true)
      ∧ (∀ e ∈ q, ∃ b, e = Event.script .post b)
      ∧ (mid ≠ [] → cfg.execute_first ≠ "" → ∃ b, Event.script .pre b ∈ p)
      ∧ (∀ f, Event.taskStart f ∈ mid → ∃ ok, Event.taskEnd f ok ∈ mid) := by
  cases h with
  | resolveFail he =>
    refine ⟨[], [], [], rfl, ?_, ?_, ?_, ?_, ?_⟩
    · intro e he'; cases he'
    · intro e he'; cases he'
    · intro e he'; cases he'
    · intro hm _; exact absurd rfl hm
    · intro f hf; cases hf
  | preFail hok hpre =>
    have hevs := preStep_err_evs hpre
    subst hevs
    refine ⟨[], [], [], rfl, ?_, ?_, ?_, ?_, ?_⟩
    · intro e he'; cases he'
    · intro e he'; cases he'
    · intro e he'; cases he'
    · intro hm _; exact absurd rfl hm
    · intro f hf; cases hf
  | @run plan m preEvs m1 mid postEvs postErr m2 hok hpre hint hpost =>
    refine ⟨preEvs, mid, postEvs, rfl, ?_, ?_, ?_, ?_, ?_⟩
    · have hp := preStep_events cfg w m
      rw [hpre] at hp
      exact hp
    · intro e he
      obtain ⟨l, hl, hel⟩ := interleave_mem hint e he
      obtain ⟨p', _, heq⟩ := List.mem_map.mp hl
      subst heq
      exact taskRun_events_isTask cfg w m1 p' e hel
    · have hq := postStep_events cfg w m1
      rw [hpost] at hq
      exact hq
    · intro _ hne
      obtain ⟨b, hevs⟩ := preStep_ok_script hne hpre
      exact ⟨b, by rw [hevs]; exact List.mem_cons_self _ _⟩
    · exact mid_taskStart_taskEnd hint

/-- Concrete bracketing run: pre-script, one successful file, post-script. -/
def cfg2 : Config :=
  { tables := ["patients.csv"], regex_suffix := "\\.csv",
    rule := ruleCsv, chunk_size := 2, threads := 2, dry_run := false,
    execute_first := "pre.sql", execute_last := "post.sql" }

/-- World for `cfg2`: a 3-row file, its table present, scripts readable. -/
def w2 : World :=
  { dirFiles := ["patients.csv"], isFile := fun s => s == "patients.csv",
    fileRows := fun _ => [["1"], ["2"], ["3"]],
    db := [("patients", [("id", SAType.Integer)])],
    scriptContent := fun _ => some "SELECT 1", execOk := fun _ => true }

/-- The metadata reflected for `w2`. -/
def md2 : MetaData := ⟨[("patients", [("id", SAType.Integer)])]⟩

/-- The single task's event sequence in the `cfg2` run. -/
def mid2 : List Event := taskRun cfg2 w2 md2 ("patients.csv", "patients")

/-- The full trace of the `cfg2` run (single-worker order). -/
def tr2 : List Event :=
  [Event.script .pre true] ++ mid2 ++ [Event.script .post true]

/-- The `cfg2` run is a possible execution of `_main`. -/
theorem mainRun_cfg2 : MainRun cfg2 w2 tr2 none :=
  @MainRun.run cfg2 w2 [("patients.csv", "patients")] md2
    [Event.script .pre true] md2 mid2 [Event.script .post true] none md2
    (by decide) (by decide) (interleave_singleton mid2) (by decide)

/-- Witness for C2 at the concrete `cfg2` run. -/
theorem phase_bracketing_witness :
    MainRun cfg2 w2 tr2 none
    ∧ (∃ p mid q, tr2 = p ++ mid ++ q
      ∧ (∀ e ∈ p, ∃ b, e = Event.script .pre b)
      ∧ (∀ e ∈ mid, e.isTask = true)
      ∧ (∀ e ∈ q, ∃ b, e = Event.script .post b)
      ∧ (mid ≠ [] → cfg2.execute_first ≠ "" → ∃ b, Event.script .pre b ∈ p)
      ∧ (∀ f, Event.taskStart f ∈ mid → ∃ ok, Event.taskEnd f ok ∈ mid)) :=
  ⟨mainRun_cfg2, phase_bracketing cfg2 w2 tr2 none mainRun_cfg2⟩

/-! ## Claim C1 (failure containment and the missing Failed transition)

`_main` submits each `_process_file` call with `executor.submit(...)` and
drops the returned future: a task's exception is stored in the future and
never re-raised, so it cancels nothing — but it is also never collected.
After the pool's `with` block waits for all tasks, `if
user_args.execute_last:` runs the post-script unconditionally: there is
no Failed transition and no gate keeping the post-script from running
after a failed upload. -/

/-- Run with one file whose single field `x` cannot be coerced to the
table's Integer column: the load task fails. -/
def cfg1 : Config :=
  { tables := ["bad.csv"], regex_suffix := "\\.csv",
    rule := ruleCsv, chunk_size := 1, threads := 2, dry_run := false,
    execute_first := "", execute_last := "post.sql" }

/-- World for `cfg1`. -/
def w1 : World :=
  { dirFiles := ["bad.csv"], isFile := fun s => s == "bad.csv",
    fileRows := fun _ => [["x"]],
    db := [("bad", [("c", SAType.Integer)])],
    scriptContent := fun _ => some "SELECT 1", execOk := fun _ => true }

/-- The metadata reflected for `w1`. -/
def md1 : MetaData := ⟨[("bad", [("c", SAType.Integer)])]⟩

/-- The failing task's events and the full `cfg1` trace. -/
def mid1 : List Event := taskRun cfg1 w1 md1 ("bad.csv", "bad")

/-- Trace of the `cfg1` run: the task fails, the post-script still runs. -/
def tr1 : List Event := ([] : List Event) ++ mid1 ++ [Event.script .post true]

/-- The `cfg1` run is a possible execution of `_main`. -/
theorem mainRun_cfg1 : MainRun cfg1 w1 tr1 none :=
  @MainRun.run cfg1 w1 [("bad.csv", "bad")] md1
    [] md1 mid1 [Event.script .post true] none md1
    (by decide) (by decide) (interleave_singleton mid1) (by decide)

/-- Counterexample to C1 as stated: a complete execution of `_main` in
which a Load Task fails (`taskEnd "bad.csv" false`), yet the post-script
is executed (`script .post true` is in the trace) and the run raises
nothing (`err = none`): the orchestrator neither transitions to a failed
state nor gates the post-script on the absence of upload failures. -/
theorem postScript_after_failure_counterexample :
    MainRun cfg1 w1 tr1 none
    ∧ Event.taskEnd "bad.csv" false ∈ tr1
    ∧ Event.script .post true ∈ tr1 :=
  ⟨mainRun_cfg1, by decide, by decide⟩

/-- C1 amended: a single task's failure indeed cancels nothing — in every
complete execution, every plan entry's task reaches a terminal state and
every started task terminates.  But failures are never collected: the
post-script (when configured, with its own execution succeeding) is
executed unconditionally, and the run returns without error, regardless
of whether any Load Task failed. -/
theorem taskFailures_not_collected (cfg : Config) (w : World)
    (tr : List Event) (err : Option RunErr) (h : MainRun cfg w tr err)
    (hres : (∃ plan m, (_process_user_args cfg w).1 = .ok (plan, m)))
    (hpre : cfg.dry_run = true ∨ cfg.execute_first = "" ∨
      ∃ s, w.scriptContent cfg.execute_first = some s ∧ w.execOk s = true)
    (hpostcfg : cfg.execute_last ≠ "")
    (hpost : cfg.dry_run = true ∨
      ∃ s, w.scriptContent cfg.execute_last = some s ∧ w.execOk s = true) :
    (∀ plan m, (_process_user_args cfg w).1 = .ok (plan, m) →
      ∀ p ∈ plan, ∃ ok, Event.taskEnd p.1 ok ∈ tr)
    ∧ (∀ f, Event.taskStart f ∈ tr → ∃ ok, Event.taskEnd f ok ∈ tr)
    ∧ (∃ b, Event.script .post b ∈ tr)
    ∧ err = none := by
  rcases mainRun_cases h with ⟨e, he, _, _⟩ |
    ⟨plan, m, e, m', hok, hpref, _, _⟩ |
    ⟨plan, m, preEvs, m1, mid, postEvs, postErr, m2, hok, hpref, hint, hpostf, htr, herr⟩
  · obtain ⟨plan, m, hok⟩ := hres
    rw [hok] at he
    cases he
  · obtain ⟨evs, m1, hnofail⟩ := preStep_no_fail (m := m) hpre
    rw [hpref] at hnofail
    simp at hnofail
  · obtain ⟨b, m2', hrun⟩ := postStep_runs (m := m1) hpostcfg hpost
    rw [hpostf] at hrun
    rw [Prod.mk.injEq, Prod.mk.injEq] at hrun
    obtain ⟨hevs, hperr, _⟩ := hrun
    subst htr
    refine ⟨?_, ?_, ?_, ?_⟩
    · intro plan' m' hok' p hp
      rw [hok] at hok'
      injection hok' with hok'
      rw [Prod.mk.injEq] at hok'
      obtain ⟨hplan, _⟩ := hok'
      subst hplan
      obtain ⟨ok, hmem⟩ := mid_plan_taskEnd hint p hp
      exact ⟨ok, List.mem_append_left _ (List.mem_append_right _ hmem)⟩
    · intro f hf
      have hfmid : Event.taskStart f ∈ mid := by
        rcases List.mem_append.mp hf with hf' | hfq
        · rcases List.mem_append.mp hf' with hfp | hfm
          · obtain ⟨b', hb'⟩ := preStep_events cfg w m (Event.taskStart f) (by rw [hpref]; exact hfp)
            cases hb'
          · exact hfm
        · obtain ⟨b', hb'⟩ := postStep_events cfg w m1 (Event.taskStart f) (by rw [hpostf]; exact hfq)
          cases hb'
      obtain ⟨ok, hmem⟩ := mid_taskStart_taskEnd hint f hfmid
      exact ⟨ok, List.mem_append_left _ (List.mem_append_right _ hmem)⟩
    · refine ⟨b, ?_⟩
      rw [hevs]
      exact List.mem_append_right _ (List.mem_cons_self _ _)
    · rw [herr, hperr]
      rfl

/-- Witness for the amended C1 at the `cfg1` run, in which the single
task actually failed and the post-script still ran. -/
theorem taskFailures_not_collected_witness :
    (MainRun cfg1 w1 tr1 none
      ∧ (∃ plan m, (_process_user_args cfg1 w1).1 = .ok (plan, m))
      ∧ cfg1.execute_last ≠ "")
    ∧ ((∀ plan m, (_process_user_args cfg1 w1).1 = .ok (plan, m) →
        ∀ p ∈ plan, ∃ ok, Event.taskEnd p.1 ok ∈ tr1)
      ∧ (∀ f, Event.taskStart f ∈ tr1 → ∃ ok, Event.taskEnd f ok ∈ tr1)
      ∧ (∃ b, Event.script .post b ∈ tr1)
      ∧ (none : Option RunErr) = none) :=
  ⟨⟨mainRun_cfg1, ⟨[("bad.csv", "bad")], md1, by decide⟩, by decide⟩,
    taskFailures_not_collected cfg1 w1 tr1 none mainRun_cfg1
      ⟨[("bad.csv", "bad")], md1, by decide⟩
      (Or.inr (Or.inl rfl)) (by decide)
      (Or.inr ⟨"SELECT 1", rfl, rfl⟩)⟩

/-! ## Claim C5 (dry-run semantics)

Under `--dry-run`, `_process_file` still reads and coerces every chunk
but skips `to_sql`, and `_execute_sql` returns immediately — before even
opening the script file and before the metadata refresh.  So a dry run
issues no mutating call and its per-file row/batch counts are the same in
every execution; but the error path of an unreadable script file exists
only in real runs. -/

/-- Rows of file `f` processed in a trace: the lengths of its chunk
events (reported in both modes). -/
def rowsProcessed (f : String) (tr : List Event) : Nat :=
  (tr.map (fun e => match e with
    | .chunk f2 _ len => if f2 = f then len else 0
    | _ => 0)).sum

/-- Batches of file `f` processed in a trace. -/
def batchesProcessed (f : String) (tr : List Event) : Nat :=
  (tr.map (fun e => match e with
    | .chunk f2 _ _ => if f2 = f then 1 else 0
    | _ => 0)).sum

theorem _execute_sql_dry_not_mutating (w : World) (m : MetaData)
    (path : String) (ph : Phase) :
    ∀ e ∈ (_execute_sql w m path true ph).1, e.isMutating = false := by
  unfold _execute_sql
  rw [if_pos rfl]
  intro e he
  rcases List.mem_cons.mp he with heq | h0
  · rw [heq]; rfl
  · cases h0

theorem preStep_dry_not_mutating {cfg : Config} {w : World} {m : MetaData}
    (hdry : cfg.dry_run = true) :
    ∀ e ∈ (preStep cfg w m).1, e.isMutating = false := by
  unfold preStep
  by_cases hf : cfg.execute_first = ""
  · rw [if_pos hf]; intro e he; cases he
  · rw [if_neg hf, hdry]
    exact _execute_sql_dry_not_mutating w m cfg.execute_first .pre

theorem postStep_dry_not_mutating {cfg : Config} {w : World} {m : MetaData}
    (hdry : cfg.dry_run = true) :
    ∀ e ∈ (postStep cfg w m).1, e.isMutating = false := by
  unfold postStep
  by_cases hf : cfg.execute_last = ""
  · rw [if_pos hf]; intro e he; cases he
  · rw [if_neg hf, hdry]
    exact _execute_sql_dry_not_mutating w m cfg.execute_last .post

theorem taskRun_dry_not_mutating {cfg : Config} (w : World) (m : MetaData)
    (hdry : cfg.dry_run = true) (p : String × String) :
    ∀ e ∈ taskRun cfg w m p, e.isMutating = false := by
  intro e he
  unfold taskRun at he
  rcases List.mem_cons.mp he with heq | he'
  · rw [heq]; rfl
  · rcases List.mem_append.mp he' with hm | hl
    · unfold _process_file at hm
      rw [hdry] at hm
      obtain ⟨j, l, heq⟩ := processChunks_dry_noappend p.1 p.2 _ 0 _ e hm
      rw [heq]; rfl
    · rcases List.mem_cons.mp hl with heq | h0
      · rw [heq]; rfl
      · cases h0

/-- C5 amended: a dry run issues zero mutating calls — no `to_sql`
append and no script execution appear in any dry trace — and dry runs
are reproducible: any two executions over the same inputs yield the same
per-file row and batch counts and the same final error.  (The original
claim's "error paths identical to a real run" part fails: see the
counterexample — `_execute_sql` returns before opening the script file,
so a missing script errors only in a real run.) -/
theorem dryRun_zero_mutations_deterministic (cfg : Config) (w : World)
    (tr tr2 : List Event) (err err2 : Option RunErr)
    (h : MainRun cfg w tr err) (h2 : MainRun cfg w tr2 err2)
    (hdry : cfg.dry_run = true) :
    (∀ e ∈ tr, e.isMutating = false)
    ∧ err = err2
    ∧ (∀ f, rowsProcessed f tr = rowsProcessed f tr2
        ∧ batchesProcessed f tr = batchesProcessed f tr2) := by
  rcases mainRun_cases h with ⟨e, he, htr, herr⟩ |
    ⟨plan, m, e, m', hok, hpref, htr, herr⟩ |
    ⟨plan, m, preEvs, m1, mid, postEvs, postErr, m2, hok, hpref, hint, hpostf, htr, herr⟩
  · rcases mainRun_cases h2 with ⟨e2, he2, htr2, herr2⟩ |
      ⟨plan2, mm2, e2, m2', hok2, hpref2, htr2, herr2⟩ |
      ⟨plan2, mm2, preEvs2, m12, mid2, postEvs2, postErr2, m22, hok2, hpref2, hint2, hpostf2, htr2, herr2⟩
    · subst htr htr2
      rw [he] at he2
      injection he2 with he2
      subst he2
      exact ⟨fun e he' => absurd he' (List.not_mem_nil _), herr.trans herr2.symm,
        fun f => ⟨rfl, rfl⟩⟩
    · rw [he] at hok2; cases hok2
    · rw [he] at hok2; cases hok2
  · rcases mainRun_cases h2 with ⟨e2, he2, htr2, herr2⟩ |
      ⟨plan2, mm2, e2, m2', hok2, hpref2, htr2, herr2⟩ |
      ⟨plan2, mm2, preEvs2, m12, mid2, postEvs2, postErr2, m22, hok2, hpref2, hint2, hpostf2, htr2, herr2⟩
    · rw [hok] at he2; cases he2
    · subst htr htr2
      rw [hok] at hok2
      injection hok2 with hok2
      rw [Prod.mk.injEq] at hok2
      obtain ⟨hplan, hm⟩ := hok2
      subst hplan
      subst hm
      rw [hpref] at hpref2
      rw [Prod.mk.injEq, Prod.mk.injEq] at hpref2
      obtain ⟨_, hee, _⟩ := hpref2
      injection hee with hee
      subst hee
      exact ⟨fun e he' => absurd he' (List.not_mem_nil _), herr.trans herr2.symm,
        fun f => ⟨rfl, rfl⟩⟩
    · rw [hok] at hok2
      injection hok2 with hok2
      rw [Prod.mk.injEq] at hok2
      obtain ⟨hplan, hm⟩ := hok2
      subst hplan
      subst hm
      rw [hpref] at hpref2
      rw [Prod.mk.injEq, Prod.mk.injEq] at hpref2
      obtain ⟨_, hee, _⟩ := hpref2
      cases hee
  · rcases mainRun_cases h2 with ⟨e2, he2, htr2, herr2⟩ |
      ⟨plan2, mm2, e2, m2', hok2, hpref2, htr2, herr2⟩ |
      ⟨plan2, mm2, preEvs2, m12, mid2, postEvs2, postErr2, m22, hok2, hpref2, hint2, hpostf2, htr2, herr2⟩
    · rw [hok] at he2; cases he2
    · rw [hok] at hok2
      injection hok2 with hok2
      rw [Prod.mk.injEq] at hok2
      obtain ⟨hplan, hm⟩ := hok2
      subst hplan
      subst hm
      rw [hpref] at hpref2
      rw [Prod.mk.injEq, Prod.mk.injEq] at hpref2
      obtain ⟨_, hee, _⟩ := hpref2
      cases hee
    · rw [hok] at hok2
      injection hok2 with hok2
      rw [Prod.mk.injEq] at hok2
      obtain ⟨hplan, hm⟩ := hok2
      subst hplan
      subst hm
      rw [hpref] at hpref2
      rw [Prod.mk.injEq, Prod.mk.injEq] at hpref2
      obtain ⟨hpe, _, hm1⟩ := hpref2
      subst hpe
      subst hm1
      rw [hpostf] at hpostf2
      rw [Prod.mk.injEq, Prod.mk.injEq] at hpostf2
      obtain ⟨hq, hperr, _⟩ := hpostf2
      subst hq
      subst hperr
      subst htr htr2
      refine ⟨?_, by rw [herr, herr2], ?_⟩
      · intro e' he'
        rcases List.mem_append.mp he' with hpm | hq'
        · rcases List.mem_append.mp hpm with hp' | hm'
          · exact preStep_dry_not_mutating hdry e' (by rw [hpref]; exact hp')
          · obtain ⟨l, hl, hel⟩ := interleave_mem hint e' hm'
            obtain ⟨p', _, heq⟩ := List.mem_map.mp hl
            subst heq
            exact taskRun_dry_not_mutating w m1 hdry p' e' hel
        · exact postStep_dry_not_mutating hdry e' (by rw [hpostf]; exact hq')
      · have counts : ∀ g : Event → Nat,
            ((preEvs ++ mid ++ postEvs).map g).sum =
              ((preEvs ++ mid2 ++ postEvs).map g).sum := by
          intro g
          simp only [List.map_append, List.sum_append]
          rw [interleave_map_sum g hint, interleave_map_sum g hint2]
        exact fun f => ⟨counts _, counts _⟩

/-- Configuration with a pre-script whose file is missing; `dry` toggles
dry-run. -/
def cfg5 (dry : Bool) : Config :=
  { tables := ["a.csv"], regex_suffix := "\\.csv",
    rule := ruleCsv, chunk_size := 2, threads := 1, dry_run := dry,
    execute_first := "pre.sql", execute_last := "" }

/-- World for `cfg5`: the data file exists (and is empty), but no script
file can be read. -/
def w5 : World :=
  { dirFiles := ["a.csv"], isFile := fun s => s == "a.csv",
    fileRows := fun _ => [], db := [("a", [])],
    scriptContent := fun _ => none, execOk := fun _ => true }

/-- The metadata reflected for `w5`. -/
def md5 : MetaData := ⟨[("a", [])]⟩

/-- The single (trivially succeeding) task of the `cfg5` dry run. -/
def mid5 : List Event := taskRun (cfg5 true) w5 md5 ("a.csv", "a")

/-- Trace of the dry `cfg5` run: the pre-script is skipped, the task
runs, nothing errors. -/
def tr5 : List Event := [Event.script .pre false] ++ mid5 ++ []

/-- The dry `cfg5` run is a possible execution of `_main`. -/
theorem mainRun_cfg5dry : MainRun (cfg5 true) w5 tr5 none :=
  @MainRun.run (cfg5 true) w5 [("a.csv", "a")] md5
    [Event.script .pre false] md5 mid5 [] none md5
    (by decide) (by decide) (interleave_singleton mid5) (by decide)

/-- Counterexample to C5 as stated: dry-run does NOT preserve all
validation and error paths of a real run.  With the pre-script file
unreadable, the dry run returns successfully (it skips `_execute_sql`
before the file is even opened), while every real run over the same
inputs raises the file error. -/
theorem dryRun_error_paths_differ_counterexample :
    MainRun (cfg5 true) w5 tr5 none
    ∧ (∀ tr err, MainRun (cfg5 false) w5 tr err →
        err = some (RunErr.script .fileNotFound))
    ∧ (none : Option RunErr) ≠ some (RunErr.script .fileNotFound) := by
  refine ⟨mainRun_cfg5dry, ?_, by decide⟩
  intro tr err h
  have hres : (_process_user_args (cfg5 false) w5).1 = .ok ([("a.csv", "a")], md5) := by
    decide
  have hps : preStep (cfg5 false) w5 md5 = ([], some ScriptErr.fileNotFound, md5) := by
    decide
  rcases mainRun_cases h with ⟨e, he, _, herr⟩ |
    ⟨plan, m, e, m', hok, hpref, _, herr⟩ |
    ⟨plan, m, preEvs, m1, mid, postEvs, postErr, m2, hok, hpref, hint, hpostf, htr, herr⟩
  · rw [hres] at he
    cases he
  · rw [hres] at hok
    injection hok with hok
    rw [Prod.mk.injEq] at hok
    obtain ⟨hplan, hm⟩ := hok
    subst hm
    rw [hps] at hpref
    rw [Prod.mk.injEq, Prod.mk.injEq] at hpref
    obtain ⟨_, hee, _⟩ := hpref
    injection hee with hee
    rw [herr, ← hee]
  · rw [hres] at hok
    injection hok with hok
    rw [Prod.mk.injEq] at hok
    obtain ⟨hplan, hm⟩ := hok
    subst hm
    rw [hps] at hpref
    rw [Prod.mk.injEq, Prod.mk.injEq] at hpref
    obtain ⟨_, hee, _⟩ := hpref
    cases hee

/-- Witness for the amended C5: two (identical) dry executions of the
missing-script configuration issue zero mutating calls, agree on the
error (none), and agree on every per-file row/batch count. -/
theorem dryRun_zero_mutations_deterministic_witness :
    (MainRun (cfg5 true) w5 tr5 none ∧ (cfg5 true).dry_run = true)
    ∧ ((∀ e ∈ tr5, e.isMutating = false)
      ∧ (none : Option RunErr) = none
      ∧ (∀ f, rowsProcessed f tr5 = rowsProcessed f tr5
          ∧ batchesProcessed f tr5 = batchesProcessed f tr5)) :=
  ⟨⟨mainRun_cfg5dry, rfl⟩,
    dryRun_zero_mutations_deterministic (cfg5 true) w5 tr5 tr5 none none
      mainRun_cfg5dry mainRun_cfg5dry rfl⟩
